import Mathlib

/-!
Verification development for the Salesforce field-dependency scraper
(`main.py`).  The program's pure computational core is shallowly embedded:
URL identifier extraction (`extract_object_id_from_url`,
`extract_field_id_from_url`), hyperlink resolution
(`extract_reference_link`), the reference filter/dedup stage of
`parse_field_dependencies_page`, the spreadsheet merge writer and the
orchestrator loop of `main`, and the field search/click logic of
`use_fields_page_quick_find` / `click_field_from_table`.  Browser and
filesystem effects are modelled as explicit environment data consumed by
the embedded control flow.
-/

/-! ## Character and list utilities -/

/-- The character class `[a-zA-Z0-9]` used by the Python regexes
(ASCII-only, exactly as the literal class). -/
def isAlnum (c : Char) : Bool :=
  let n := c.toNat
  (48 ≤ n && n ≤ 57) || (65 ≤ n && n ≤ 90) || (97 ≤ n && n ≤ 122)

/-- Single-quote character (code 39), used when building regex pattern
pieces without putting an apostrophe in a string literal. -/
def sqc : Char := Char.ofNat 39

/-- `startsList pat l` is true iff `pat` is an initial segment of `l`
(Python `str.startswith` at the list-of-characters level). -/
def startsList (pat l : List Char) : Bool :=
  pat == l.take pat.length

theorem startsList_iff (pat l : List Char) :
    startsList pat l = true ↔ ∃ t, l = pat ++ t := by
  unfold startsList
  rw [beq_iff_eq]
  constructor
  · intro h
    exact ⟨l.drop pat.length, by conv_lhs => rw [← List.take_append_drop pat.length l, ← h]⟩
  · rintro ⟨t, rfl⟩
    rw [List.take_left]

/-- Value of a hex digit, as accepted by Python's `urllib.parse.unquote`. -/
def hexVal (c : Char) : Option Nat :=
  let n := c.toNat
  if 48 ≤ n && n ≤ 57 then some (n - 48)
  else if 97 ≤ n && n ≤ 102 then some (n - 87)
  else if 65 ≤ n && n ≤ 70 then some (n - 55)
  else none

/-- Percent-decoding (`urllib.parse.unquote`): each valid `%hh` escape
becomes the character with code `16*h+h`; malformed escapes are kept
verbatim, exactly as `unquote` keeps them. -/
def unquote : List Char → List Char
  | '%' :: a :: b :: rest =>
    match hexVal a, hexVal b with
    | some x, some y => Char.ofNat (16 * x + y) :: unquote rest
    | _, _ => '%' :: unquote (a :: b :: rest)
  | c :: rest => c :: unquote rest
  | [] => []

/-! ## Identifier Extractor (`extract_object_id_from_url`, main.py 56-66)

The Python body is `re.search(r'/ObjectManager/([a-zA-Z0-9]{15,18})/', url)`.
Since the quantifier runs over the same character class that must be
followed by a non-member (`/`), backtracking admits exactly one candidate
per start position: the maximal alphanumeric run after the literal prefix,
accepted iff its length lies in `[15,18]` and the next character is `/`.
`re.search` returns the leftmost such match. -/

/-- The literal part of the object-id regex. -/
def omPat : List Char := "/ObjectManager/".toList

/-- One attempted regex match anchored at the start of `cs`. -/
def objIdMatchAt (cs : List Char) : Option (List Char) :=
  if startsList omPat cs then
    let rest := cs.drop omPat.length
    let run := rest.takeWhile isAlnum
    let after := rest.dropWhile isAlnum
    if 15 ≤ run.length ∧ run.length ≤ 18 ∧ after.head? = some '/' then some run
    else none
  else none

/-- `extract_object_id_from_url` (main.py 56-66): leftmost match of the
object-id pattern, `none` when the pattern matches nowhere.  Total: the
Python function catches nothing because nothing can raise. -/
def extract_object_id_from_url : List Char → Option (List Char)
  | [] => none
  | c :: rest =>
    match objIdMatchAt (c :: rest) with
    | some m => some m
    | none => extract_object_id_from_url rest

/-- `seg` occurs in `url` as a 15-18 character alphanumeric path segment
between `/ObjectManager/` and a following `/`. -/
def IsObjSeg (url seg : List Char) : Prop :=
  ∃ pre post, url = pre ++ omPat ++ seg ++ '/' :: post ∧
    seg.all isAlnum = true ∧ 15 ≤ seg.length ∧ seg.length ≤ 18

/-! ## Reference Filter/Dedup (`parse_field_dependencies_page`, main.py 399-421) -/

/-- A scraped reference triple `(ref_type, ref_name, link)`. -/
abbrev Ref := String × String × String

/-- Write to a Python dict modelled as an association list with distinct
keys: an existing key keeps its position and gets the new value, a new key
is appended (insertion order, Python 3.7+ dict semantics). -/
def dictUpsert {α β : Type} [DecidableEq α] : List (α × β) → α → β → List (α × β)
  | [], k, v => [(k, v)]
  | (k0, v0) :: rest, k, v =>
    if k0 = k then (k, v) :: rest else (k0, v0) :: dictUpsert rest k v

/-- Python dict lookup on the association-list model. -/
def dictLookup {α β : Type} [DecidableEq α] : List (α × β) → α → Option β
  | [], _ => none
  | (k0, v) :: rest, k => if k0 = k then some v else dictLookup rest k

/-- One iteration of the filter/dedup loop (main.py 404-416): accumulator
is `(filtered_refs, last_flow)`. -/
def fdStep (acc : List Ref × List (String × Ref)) (r : Ref) : List Ref × List (String × Ref) :=
  if r.1 = "ReportType" then acc
  else if r.1 = "Flow" then (acc.1, dictUpsert acc.2 r.2.1 r)
  else (acc.1 ++ [r], acc.2)

/-- The filter/dedup stage of `parse_field_dependencies_page`
(main.py 399-421): drop `ReportType` rows, collect `Flow` rows in a
last-wins dict keyed by name, emit the non-flow survivors in order
followed by the dict's values. -/
def filter_dedup (refs : List Ref) : List Ref :=
  let acc := refs.foldl fdStep ([], [])
  acc.1 ++ acc.2.map (fun p => p.2)

/-- The non-flow, non-`ReportType` references of the input, in order. -/
def keepOrd (refs : List Ref) : List Ref :=
  refs.filter (fun r => ¬ r.1 = "ReportType" ∧ ¬ r.1 = "Flow")

/-- The dict part of the fold alone, from an arbitrary starting dict. -/
def dictFold (d : List (String × Ref)) (refs : List Ref) : List (String × Ref) :=
  refs.foldl
    (fun d r =>
      if r.1 = "ReportType" then d
      else if r.1 = "Flow" then dictUpsert d r.2.1 r
      else d) d

/-- The appended flow block of the output. -/
def flowPart (refs : List Ref) : List Ref :=
  (dictFold [] refs).map (fun p => p.2)

/-- Names of the `Flow`-typed references, in input order. -/
def flowNames (refs : List Ref) : List String :=
  (refs.filter (fun r => r.1 = "Flow")).map (fun r => r.2.1)

/-- First-occurrence deduplication of a list of names (the key order of a
Python dict built by repeated writes). -/
def firstOccOrder (l : List String) : List String :=
  l.foldl (fun acc n => if n ∈ acc then acc else acc ++ [n]) []

/-- The last `Flow`-typed occurrence with name `n` in `refs`. -/
def lastFlowOcc (refs : List Ref) (n : String) : Option Ref :=
  (refs.filter (fun r => r.1 = "Flow" ∧ r.2.1 = n)).getLast?

/-! ### Association-list (Python dict) lemmas -/

theorem dictLookup_upsert_self {α β : Type} [DecidableEq α] (d : List (α × β)) (k : α) (v : β) :
    dictLookup (dictUpsert d k v) k = some v := by
  induction d with
  | nil => simp [dictUpsert, dictLookup]
  | cons p rest ih =>
    obtain ⟨k0, v0⟩ := p
    by_cases h : k0 = k
    · simp [dictUpsert, dictLookup, h]
    · simp [dictUpsert, dictLookup, h, ih]

theorem dictLookup_upsert_ne {α β : Type} [DecidableEq α] (d : List (α × β)) (k k' : α) (v : β)
    (h : k' ≠ k) : dictLookup (dictUpsert d k v) k' = dictLookup d k' := by
  have hne : ¬ k = k' := fun hh => h hh.symm
  induction d with
  | nil => simp [dictUpsert, dictLookup, hne]
  | cons p rest ih =>
    obtain ⟨k0, v0⟩ := p
    by_cases hk : k0 = k
    · subst hk
      simp [dictUpsert, dictLookup, hne]
    · simp only [dictUpsert, if_neg hk, dictLookup]
      by_cases hk' : k0 = k'
      · simp [hk']
      · simp [hk', ih]

theorem keys_upsert {α β : Type} [DecidableEq α] (d : List (α × β)) (k : α) (v : β) :
    (dictUpsert d k v).map Prod.fst =
      if k ∈ d.map Prod.fst then d.map Prod.fst else d.map Prod.fst ++ [k] := by
  induction d with
  | nil => simp [dictUpsert]
  | cons p rest ih =>
    obtain ⟨k0, v0⟩ := p
    by_cases h : k0 = k
    · simp [dictUpsert, h]
    · simp only [dictUpsert, if_neg h, List.map_cons, ih, List.mem_cons]
      have hne : ¬ k = k0 := fun hh => h hh.symm
      by_cases hm : k ∈ rest.map Prod.fst
      · simp [hm, hne]
      · simp [hm, hne]

theorem nodup_keys_upsert {α β : Type} [DecidableEq α] (d : List (α × β)) (k : α) (v : β)
    (h : (d.map Prod.fst).Nodup) : ((dictUpsert d k v).map Prod.fst).Nodup := by
  rw [keys_upsert]
  by_cases hm : k ∈ d.map Prod.fst
  · simpa [hm] using h
  · simp only [hm, if_false]
    rw [List.nodup_append]
    refine ⟨h, List.nodup_singleton _, ?_⟩
    intro x hx hx2
    simp only [List.mem_singleton] at hx2
    subst hx2
    exact hm hx

theorem mem_upsert {α β : Type} [DecidableEq α] {d : List (α × β)} {k : α} {v : β}
    {p : α × β} (hp : p ∈ dictUpsert d k v) : p ∈ d ∨ p = (k, v) := by
  induction d with
  | nil => simpa [dictUpsert] using hp
  | cons q rest ih =>
    obtain ⟨k0, v0⟩ := q
    by_cases h : k0 = k
    · simp only [dictUpsert, if_pos h, List.mem_cons] at hp
      rcases hp with h1 | h1
      · exact Or.inr h1
      · exact Or.inl (List.mem_cons_of_mem _ h1)
    · simp only [dictUpsert, if_neg h, List.mem_cons] at hp
      rcases hp with h1 | h1
      · exact Or.inl (by simp [h1])
      · rcases ih h1 with h2 | h2
        · exact Or.inl (List.mem_cons_of_mem _ h2)
        · exact Or.inr h2

theorem dictLookup_of_mem {α β : Type} [DecidableEq α] {d : List (α × β)} {k : α} {v : β}
    (hnd : (d.map Prod.fst).Nodup) (hm : (k, v) ∈ d) : dictLookup d k = some v := by
  induction d with
  | nil => simp at hm
  | cons q rest ih =>
    obtain ⟨k0, v0⟩ := q
    simp only [List.map_cons, List.nodup_cons] at hnd
    rcases List.mem_cons.mp hm with h1 | h1
    · obtain ⟨hk, hv⟩ := Prod.mk.injEq .. ▸ h1
      simp [dictLookup, hk.symm, hv]
    · have hk : k0 ≠ k := by
        rintro rfl
        exact hnd.1 (List.mem_map.mpr ⟨(k0, v), h1, rfl⟩)
      simp [dictLookup, hk, ih hnd.2 h1]

theorem upsert_of_not_mem {α β : Type} [DecidableEq α] {d : List (α × β)} {k : α} (v : β)
    (h : k ∉ d.map Prod.fst) : dictUpsert d k v = d ++ [(k, v)] := by
  induction d with
  | nil => simp [dictUpsert]
  | cons q rest ih =>
    obtain ⟨k0, v0⟩ := q
    simp only [List.map_cons, List.mem_cons] at h
    push_neg at h
    have hne : k0 ≠ k := fun hh => h.1 hh.symm
    simp [dictUpsert, hne, ih h.2]

theorem al_eq_map_keys {α β : Type} [DecidableEq α] (dflt : β) (d : List (α × β))
    (hnd : (d.map Prod.fst).Nodup) :
    d = (d.map Prod.fst).map (fun k => (k, (dictLookup d k).getD dflt)) := by
  induction d with
  | nil => simp
  | cons q rest ih =>
    obtain ⟨k0, v0⟩ := q
    simp only [List.map_cons, List.nodup_cons] at hnd
    simp only [List.map_cons]
    rw [List.cons_eq_cons]
    refine ⟨by simp [dictLookup], ?_⟩
    conv_lhs => rw [ih hnd.2]
    apply List.map_congr_left
    intro k hk
    have hne : k0 ≠ k := fun hh => hnd.1 (hh ▸ hk)
    simp [dictLookup, hne]

/-! ### Filter/dedup fold lemmas -/

theorem foldl_fdStep_split (refs : List Ref) (f : List Ref) (d : List (String × Ref)) :
    refs.foldl fdStep (f, d) = (f ++ keepOrd refs, dictFold d refs) := by
  induction refs generalizing f d with
  | nil => simp [keepOrd, dictFold]
  | cons r rest ih =>
    by_cases h1 : r.1 = "ReportType"
    · simp [List.foldl_cons, fdStep, h1, ih, keepOrd, dictFold, List.filter_cons]
    · by_cases h2 : r.1 = "Flow"
      · simp [List.foldl_cons, fdStep, h1, h2, ih, keepOrd, dictFold, List.filter_cons]
      · simp [List.foldl_cons, fdStep, h1, h2, ih, keepOrd, dictFold, List.filter_cons]

theorem filter_dedup_eq (refs : List Ref) :
    filter_dedup refs = keepOrd refs ++ flowPart refs := by
  simp [filter_dedup, foldl_fdStep_split, flowPart]

theorem getLast?_cons_or {α : Type} (a : α) (l : List α) :
    (a :: l).getLast? = l.getLast?.or (some a) := by
  induction l generalizing a with
  | nil => simp
  | cons b m ih =>
    rw [List.getLast?_cons_cons, ih b, Option.or_assoc]
    rfl

theorem lastFlowOcc_cons (r : Ref) (rest : List Ref) (n : String) :
    lastFlowOcc (r :: rest) n =
      if r.1 = "Flow" ∧ r.2.1 = n then (lastFlowOcc rest n).or (some r)
      else lastFlowOcc rest n := by
  by_cases h : r.1 = "Flow" ∧ r.2.1 = n
  · simp [lastFlowOcc, List.filter_cons, h, getLast?_cons_or]
  · simp [lastFlowOcc, List.filter_cons, h]

theorem dictLookup_dictFold (refs : List Ref) (d : List (String × Ref)) (k : String) :
    dictLookup (dictFold d refs) k = (lastFlowOcc refs k).or (dictLookup d k) := by
  induction refs generalizing d with
  | nil => simp [dictFold, lastFlowOcc]
  | cons r rest ih =>
    have hstep : dictFold d (r :: rest) =
        dictFold (if r.1 = "ReportType" then d
                  else if r.1 = "Flow" then dictUpsert d r.2.1 r else d) rest := by
      simp [dictFold]
    rw [hstep, ih, lastFlowOcc_cons]
    by_cases h1 : r.1 = "ReportType"
    · have h2 : ¬ (r.1 = "Flow" ∧ r.2.1 = k) := by
        rintro ⟨hf, -⟩
        rw [h1] at hf
        exact absurd hf (by decide)
      simp [h1, h2]
    · by_cases h2 : r.1 = "Flow"
      · by_cases h3 : r.2.1 = k
        · rw [if_neg h1, if_pos h2, if_pos ⟨h2, h3⟩, h3, dictLookup_upsert_self,
            Option.or_assoc]
          rfl
        · rw [if_neg h1, if_pos h2,
            dictLookup_upsert_ne d r.2.1 k r (fun hh => h3 hh.symm),
            if_neg (fun hh => h3 hh.2)]
      · have h3 : ¬ (r.1 = "Flow" ∧ r.2.1 = k) := fun hh => h2 hh.1
        simp [h1, h2, h3]

theorem keys_dictFold (refs : List Ref) (d : List (String × Ref)) :
    (dictFold d refs).map Prod.fst =
      (flowNames refs).foldl (fun ks n => if n ∈ ks then ks else ks ++ [n])
        (d.map Prod.fst) := by
  induction refs generalizing d with
  | nil => simp [dictFold, flowNames]
  | cons r rest ih =>
    have hstep : dictFold d (r :: rest) =
        dictFold (if r.1 = "ReportType" then d
                  else if r.1 = "Flow" then dictUpsert d r.2.1 r else d) rest := by
      simp [dictFold]
    rw [hstep]
    by_cases h1 : r.1 = "ReportType"
    · have h2 : ¬ r.1 = "Flow" := by rw [h1]; decide
      simp [h1, h2, ih, flowNames, List.filter_cons]
    · by_cases h2 : r.1 = "Flow"
      · rw [if_neg h1, if_pos h2, ih]
        simp [flowNames, List.filter_cons, h2, keys_upsert]
      · simp [h1, h2, ih, flowNames, List.filter_cons]

theorem nodup_keys_dictFold (refs : List Ref) (d : List (String × Ref))
    (h : (d.map Prod.fst).Nodup) : ((dictFold d refs).map Prod.fst).Nodup := by
  induction refs generalizing d with
  | nil => simpa [dictFold] using h
  | cons r rest ih =>
    have hstep : dictFold d (r :: rest) =
        dictFold (if r.1 = "ReportType" then d
                  else if r.1 = "Flow" then dictUpsert d r.2.1 r else d) rest := by
      simp [dictFold]
    rw [hstep]
    by_cases h1 : r.1 = "ReportType"
    · simpa [h1] using ih d h
    · by_cases h2 : r.1 = "Flow"
      · rw [if_neg h1, if_pos h2]
        exact ih _ (nodup_keys_upsert d _ r h)
      · simpa [h1, h2] using ih d h

theorem mem_dictFold_inv (refs : List Ref) (d : List (String × Ref))
    (hd : ∀ p ∈ d, (p.2.1 = "Flow" ∧ p.2.2.1 = p.1)) :
    ∀ p ∈ dictFold d refs, (p.2.1 = "Flow" ∧ p.2.2.1 = p.1) := by
  induction refs generalizing d with
  | nil => simpa [dictFold] using hd
  | cons r rest ih =>
    have hstep : dictFold d (r :: rest) =
        dictFold (if r.1 = "ReportType" then d
                  else if r.1 = "Flow" then dictUpsert d r.2.1 r else d) rest := by
      simp [dictFold]
    rw [hstep]
    by_cases h1 : r.1 = "ReportType"
    · simpa [h1] using ih d hd
    · by_cases h2 : r.1 = "Flow"
      · rw [if_neg h1, if_pos h2]
        apply ih
        intro p hp
        rcases mem_upsert hp with hm | hm
        · exact hd p hm
        · subst hm
          exact ⟨h2, rfl⟩
      · simpa [h1, h2] using ih d hd

theorem keys_dictFold_nil (refs : List Ref) :
    (dictFold [] refs).map Prod.fst = firstOccOrder (flowNames refs) := by
  rw [keys_dictFold]
  simp [firstOccOrder]

theorem flowPart_eq (refs : List Ref) :
    flowPart refs = (firstOccOrder (flowNames refs)).map
      (fun n => (lastFlowOcc refs n).getD ("", "", "")) := by
  have hnd : ((dictFold [] refs).map Prod.fst).Nodup := nodup_keys_dictFold refs [] (by simp)
  have hrep := al_eq_map_keys (("", "", "") : Ref) (dictFold [] refs) hnd
  unfold flowPart
  conv_lhs => rw [hrep]
  rw [List.map_map, keys_dictFold_nil]
  apply List.map_congr_left
  intro n hn
  simp only [Function.comp_apply]
  rw [dictLookup_dictFold]
  simp [dictLookup]

theorem flowPart_flow (refs : List Ref) : ∀ r ∈ flowPart refs, r.1 = "Flow" := by
  intro r hr
  obtain ⟨p, hp, rfl⟩ := List.mem_map.mp hr
  exact (mem_dictFold_inv refs [] (by simp) p hp).1

theorem flowPart_names (refs : List Ref) :
    (flowPart refs).map (fun r => r.2.1) = firstOccOrder (flowNames refs) := by
  unfold flowPart
  rw [List.map_map, ← keys_dictFold_nil]
  apply List.map_congr_left
  intro p hp
  exact (mem_dictFold_inv refs [] (by simp) p hp).2

theorem flowPart_last (refs : List Ref) :
    ∀ r ∈ flowPart refs, lastFlowOcc refs r.2.1 = some r := by
  intro r hr
  obtain ⟨p, hp, hsnd⟩ := List.mem_map.mp hr
  obtain ⟨k, v⟩ := p
  have hnd := nodup_keys_dictFold refs [] (by simp)
  have hinv := mem_dictFold_inv refs [] (by simp) (k, v) hp
  have hlook : dictLookup (dictFold [] refs) k = some v := dictLookup_of_mem hnd hp
  rw [dictLookup_dictFold] at hlook
  simp only [dictLookup, Option.or_none] at hlook
  subst hsnd
  rw [hinv.2, hlook]

theorem mem_firstOccOrder_aux (l : List String) (acc : List String) (n : String) :
    n ∈ l.foldl (fun acc n => if n ∈ acc then acc else acc ++ [n]) acc ↔
      n ∈ acc ∨ n ∈ l := by
  induction l generalizing acc with
  | nil => simp
  | cons x rest ih =>
    simp only [List.foldl_cons, List.mem_cons]
    by_cases hx : x ∈ acc
    · rw [if_pos hx, ih]
      constructor
      · tauto
      · rintro (h | rfl | h)
        · exact Or.inl h
        · exact Or.inl hx
        · exact Or.inr h
    · rw [if_neg hx, ih]
      simp only [List.mem_append, List.mem_singleton]
      tauto

theorem mem_firstOccOrder (l : List String) (n : String) :
    n ∈ firstOccOrder l ↔ n ∈ l := by
  unfold firstOccOrder
  rw [mem_firstOccOrder_aux]
  simp

theorem firstOccOrder_nodup_aux (l : List String) (acc : List String) (h : acc.Nodup) :
    (l.foldl (fun acc n => if n ∈ acc then acc else acc ++ [n]) acc).Nodup := by
  induction l generalizing acc with
  | nil => simpa using h
  | cons x rest ih =>
    simp only [List.foldl_cons]
    by_cases hx : x ∈ acc
    · simpa [hx] using ih acc h
    · rw [if_neg hx]
      apply ih
      rw [List.nodup_append]
      refine ⟨h, List.nodup_singleton _, ?_⟩
      intro y hy hy2
      simp only [List.mem_singleton] at hy2
      subst hy2
      exact hx hy

theorem firstOccOrder_nodup (l : List String) : (firstOccOrder l).Nodup :=
  firstOccOrder_nodup_aux l [] (List.nodup_nil)

theorem keepOrd_append (a b : List Ref) : keepOrd (a ++ b) = keepOrd a ++ keepOrd b := by
  simp [keepOrd, List.filter_append]

theorem dictFold_append (d : List (String × Ref)) (a b : List Ref) :
    dictFold d (a ++ b) = dictFold (dictFold d a) b := by
  simp [dictFold, List.foldl_append]

theorem keepOrd_keep (refs : List Ref) :
    ∀ r ∈ keepOrd refs, ¬ r.1 = "ReportType" ∧ ¬ r.1 = "Flow" := by
  intro r hr
  have := (List.mem_filter.mp hr).2
  simpa using this

theorem keepOrd_of_all (L : List Ref) (h : ∀ r ∈ L, ¬ r.1 = "ReportType" ∧ ¬ r.1 = "Flow") :
    keepOrd L = L := by
  apply List.filter_eq_self.mpr
  intro r hr
  simpa using h r hr

theorem keepOrd_of_flow (L : List Ref) (h : ∀ r ∈ L, r.1 = "Flow") : keepOrd L = [] := by
  apply List.filter_eq_nil_iff.mpr
  intro r hr
  simp [h r hr]

theorem dictFold_no_flow (L : List Ref) (d : List (String × Ref))
    (h : ∀ r ∈ L, ¬ r.1 = "Flow") : dictFold d L = d := by
  induction L generalizing d with
  | nil => simp [dictFold]
  | cons r rest ih =>
    have hstep : dictFold d (r :: rest) =
        dictFold (if r.1 = "ReportType" then d
                  else if r.1 = "Flow" then dictUpsert d r.2.1 r else d) rest := by
      simp [dictFold]
    rw [hstep]
    have hr := h r (List.mem_cons_self r rest)
    by_cases h1 : r.1 = "ReportType"
    · simpa [h1] using ih d (fun x hx => h x (List.mem_cons_of_mem r hx))
    · simpa [h1, hr] using ih d (fun x hx => h x (List.mem_cons_of_mem r hx))

theorem dictFold_fresh (F : List Ref) (d : List (String × Ref))
    (hflow : ∀ r ∈ F, r.1 = "Flow")
    (hnd : (F.map (fun r => r.2.1)).Nodup)
    (hdisj : ∀ n ∈ F.map (fun r => r.2.1), n ∉ d.map Prod.fst) :
    dictFold d F = d ++ F.map (fun r => (r.2.1, r)) := by
  induction F generalizing d with
  | nil => simp [dictFold]
  | cons r rest ih =>
    have hstep : dictFold d (r :: rest) =
        dictFold (if r.1 = "ReportType" then d
                  else if r.1 = "Flow" then dictUpsert d r.2.1 r else d) rest := by
      simp [dictFold]
    rw [hstep]
    have hr := hflow r (List.mem_cons_self r rest)
    have hrt : ¬ r.1 = "ReportType" := by rw [hr]; decide
    rw [if_neg hrt, if_pos hr]
    have hnew : r.2.1 ∉ d.map Prod.fst :=
      hdisj r.2.1 (by simp)
    rw [upsert_of_not_mem r hnew]
    simp only [List.map_cons, List.nodup_cons] at hnd
    rw [ih (d ++ [(r.2.1, r)]) (fun x hx => hflow x (List.mem_cons_of_mem r hx)) hnd.2 ?_]
    · simp
    · intro n hn
      simp only [List.map_append, List.mem_append, List.map_cons, List.map_nil,
        List.mem_singleton, not_or]
      refine ⟨hdisj n (by simp [hn]), ?_⟩
      rintro rfl
      exact hnd.1 hn

/-- Claim C2: the Filter/Dedup stage emits every non-excluded, non-Flow
input triple in input order, followed by exactly one triple per distinct
`ref_name` among the `Flow`-typed inputs, each equal to the last `Flow`
occurrence with that name; no `ReportType` triple ever appears in the
output. -/
theorem C2_filter_dedup_functional (refs : List Ref) :
    filter_dedup refs =
        refs.filter (fun r => ¬ r.1 = "ReportType" ∧ ¬ r.1 = "Flow") ++ flowPart refs
    ∧ (flowPart refs).map (fun r => r.2.1) = firstOccOrder (flowNames refs)
    ∧ ((flowPart refs).map (fun r => r.2.1)).Nodup
    ∧ (∀ n, n ∈ (flowPart refs).map (fun r => r.2.1) ↔ n ∈ flowNames refs)
    ∧ (∀ r ∈ flowPart refs, r.1 = "Flow" ∧ lastFlowOcc refs r.2.1 = some r)
    ∧ (∀ r ∈ filter_dedup refs, ¬ r.1 = "ReportType") := by
  refine ⟨filter_dedup_eq refs, flowPart_names refs, ?_, ?_, ?_, ?_⟩
  · rw [flowPart_names]
    exact firstOccOrder_nodup _
  · intro n
    rw [flowPart_names]
    exact mem_firstOccOrder _ n
  · intro r hr
    exact ⟨flowPart_flow refs r hr, flowPart_last refs r hr⟩
  · intro r hr
    rw [filter_dedup_eq] at hr
    rcases List.mem_append.mp hr with h | h
    · exact (keepOrd_keep refs r h).1
    · rw [flowPart_flow refs r h]
      decide

/-- Claim C9: the Filter/Dedup stage is idempotent — applying it to its
own output returns that output unchanged. -/
theorem C9_filter_dedup_idempotent (refs : List Ref) :
    filter_dedup (filter_dedup refs) = filter_dedup refs := by
  rw [filter_dedup_eq refs, filter_dedup_eq (keepOrd refs ++ flowPart refs)]
  have hK : keepOrd (keepOrd refs ++ flowPart refs) = keepOrd refs := by
    rw [keepOrd_append, keepOrd_of_all _ (keepOrd_keep refs),
      keepOrd_of_flow _ (flowPart_flow refs), List.append_nil]
  have hnamesnd : ((flowPart refs).map (fun r => r.2.1)).Nodup := by
    rw [flowPart_names]
    exact firstOccOrder_nodup _
  have hF : flowPart (keepOrd refs ++ flowPart refs) = flowPart refs := by
    have h1 : dictFold [] (keepOrd refs ++ flowPart refs) =
        (flowPart refs).map (fun r => (r.2.1, r)) := by
      rw [dictFold_append, dictFold_no_flow _ _ (fun r hr => (keepOrd_keep refs r hr).2),
        dictFold_fresh (flowPart refs) [] (flowPart_flow refs) hnamesnd (by simp)]
      simp
    show (dictFold [] (keepOrd refs ++ flowPart refs)).map (fun p => p.2) = flowPart refs
    rw [h1, List.map_map]
    exact (List.map_congr_left (fun a _ => rfl)).trans (List.map_id _)
  rw [hK, hF]

/-- Claim C10: the deduplicated `Flow` block appended at the end of the
Filter/Dedup output is deterministic: survivors appear in order of the
first occurrence of each distinct name (dict insertion order), and each
carries the data of the last occurrence with that name. -/
theorem C10_flow_block_order (refs : List Ref) :
    filter_dedup refs = keepOrd refs ++
      (firstOccOrder (flowNames refs)).map
        (fun n => (lastFlowOcc refs n).getD ("", "", "")) := by
  rw [filter_dedup_eq, flowPart_eq]

/-! ### Identifier Extractor lemmas -/

theorem takeWhile_all_append (p : Char → Bool) (seg : List Char) (x : Char) (t : List Char)
    (hall : seg.all p = true) (hx : p x = false) :
    (seg ++ x :: t).takeWhile p = seg ∧ (seg ++ x :: t).dropWhile p = x :: t := by
  induction seg with
  | nil => simp [List.takeWhile, List.dropWhile, hx]
  | cons c cs ih =>
    simp only [List.all_cons, Bool.and_eq_true] at hall
    have := ih hall.2
    simp [List.takeWhile, List.dropWhile, hall.1, this.1, this.2]

theorem all_takeWhile (p : Char → Bool) (l : List Char) :
    (l.takeWhile p).all p = true := by
  induction l with
  | nil => simp
  | cons c cs ih =>
    by_cases h : p c
    · simp only [List.takeWhile, h, List.all_cons, Bool.and_eq_true]
      exact ⟨trivial, ih⟩
    · simp [List.takeWhile, h]

theorem objIdMatchAt_sound (cs m : List Char) (h : objIdMatchAt cs = some m) :
    ∃ post, cs = omPat ++ m ++ '/' :: post ∧ m.all isAlnum = true ∧
      15 ≤ m.length ∧ m.length ≤ 18 := by
  unfold objIdMatchAt at h
  by_cases hs : startsList omPat cs
  · obtain ⟨t, rfl⟩ := (startsList_iff omPat cs).mp hs
    rw [if_pos hs] at h
    simp only [List.drop_left] at h
    by_cases hcond : 15 ≤ (t.takeWhile isAlnum).length ∧
        (t.takeWhile isAlnum).length ≤ 18 ∧ (t.dropWhile isAlnum).head? = some '/'
    · rw [if_pos hcond] at h
      have hm : t.takeWhile isAlnum = m := by simpa using h
      obtain ⟨h15, h18, hhd⟩ := hcond
      cases hdr : t.dropWhile isAlnum with
      | nil => rw [hdr] at hhd; simp at hhd
      | cons y ys =>
        rw [hdr] at hhd
        simp only [List.head?_cons, Option.some.injEq] at hhd
        subst hhd
        refine ⟨ys, ?_, ?_, ?_, ?_⟩
        · have ht : t = m ++ '/' :: ys := by
            conv_lhs => rw [← List.takeWhile_append_dropWhile isAlnum t]
            rw [hdr, hm]
          simp [ht]
        · rw [← hm]
          exact all_takeWhile isAlnum t
        · rw [← hm]; exact h15
        · rw [← hm]; exact h18
    · rw [if_neg hcond] at h
      exact absurd h (by simp)
  · rw [if_neg hs] at h
    exact absurd h (by simp)

theorem objIdMatchAt_complete (seg post : List Char)
    (hall : seg.all isAlnum = true) (h15 : 15 ≤ seg.length) (h18 : seg.length ≤ 18) :
    objIdMatchAt (omPat ++ seg ++ '/' :: post) = some seg := by
  have hsplit := takeWhile_all_append isAlnum seg '/' post hall (by decide)
  have hs : startsList omPat (omPat ++ (seg ++ '/' :: post)) = true :=
    (startsList_iff _ _).mpr ⟨seg ++ '/' :: post, rfl⟩
  rw [List.append_assoc]
  unfold objIdMatchAt
  rw [if_pos hs]
  simp only [List.drop_left, hsplit.1, hsplit.2, List.head?_cons]
  rw [if_pos ⟨h15, h18, trivial⟩]

theorem extract_object_id_sound (url : List Char) :
    ∀ s, extract_object_id_from_url url = some s → IsObjSeg url s := by
  induction url with
  | nil => intro s h; simp [extract_object_id_from_url] at h
  | cons c rest ih =>
    intro s h
    unfold extract_object_id_from_url at h
    cases hm : objIdMatchAt (c :: rest) with
    | some m =>
      rw [hm] at h
      obtain rfl : m = s := by simpa using h
      obtain ⟨post, heq, ha, h1, h2⟩ := objIdMatchAt_sound _ _ hm
      exact ⟨[], post, by simpa using heq, ha, h1, h2⟩
    | none =>
      rw [hm] at h
      obtain ⟨pre, post, heq, ha, h1, h2⟩ := ih s h
      exact ⟨c :: pre, post, by simp [heq], ha, h1, h2⟩

theorem extract_object_id_complete (url : List Char) :
    (∃ seg, IsObjSeg url seg) → (extract_object_id_from_url url).isSome = true := by
  induction url with
  | nil =>
    rintro ⟨seg, pre, post, heq, -, -, -⟩
    have : ([] : List Char).length = (pre ++ omPat ++ seg ++ '/' :: post).length := by rw [heq]
    simp [omPat] at this
    omega
  | cons c rest ih =>
    rintro ⟨seg, pre, post, heq, ha, h1, h2⟩
    unfold extract_object_id_from_url
    cases hm : objIdMatchAt (c :: rest) with
    | some m => simp
    | none =>
      cases pre with
      | nil =>
        exfalso
        have : objIdMatchAt (c :: rest) = some seg := by
          rw [heq]
          simpa using objIdMatchAt_complete seg post ha h1 h2
        rw [hm] at this
        exact absurd this (by simp)
      | cons c' pre' =>
        simp only [List.cons_append, List.cons.injEq] at heq
        obtain ⟨-, hrest⟩ := heq
        exact ih ⟨seg, pre', post, by simpa using hrest, ha, h1, h2⟩

/-- Claim C5: for every URL containing a 15-18 character alphanumeric
segment between `/ObjectManager/` and a following `/`, the Identifier
Extractor returns such an exact segment of the URL; for every URL without
one it returns `none` ("not found"); the function is total, so it never
raises. -/
theorem C5_identifier_extractor (url : List Char) :
    ((∃ seg, IsObjSeg url seg) → (extract_object_id_from_url url).isSome = true)
    ∧ (∀ s, extract_object_id_from_url url = some s → IsObjSeg url s)
    ∧ ((¬ ∃ seg, IsObjSeg url seg) → extract_object_id_from_url url = none) := by
  refine ⟨extract_object_id_complete url, extract_object_id_sound url, ?_⟩
  intro hno
  cases h : extract_object_id_from_url url with
  | none => rfl
  | some s => exact absurd ⟨s, extract_object_id_sound url s h⟩ hno

/-- Witness for C5 at a concrete URL holding a 15-character object id. -/
theorem C5_identifier_extractor_witness :
    (extract_object_id_from_url "/ObjectManager/ABCDEFGHIJKLMNO/view".toList).isSome = true :=
  (C5_identifier_extractor _).1
    ⟨"ABCDEFGHIJKLMNO".toList,
      ⟨[], "view".toList, by decide, by decide, by decide, by decide⟩⟩

/-! ## Reference Link Resolver (`extract_reference_link`, main.py 312-355)

A table row is modelled as its list of `.dataCell` cells; each cell holds
the list of its anchor elements; an anchor exposes the raw value of its
`href` attribute (`none` models a missing attribute, as returned by
`get_attribute`). -/

/-- An anchor element as seen by the resolver. -/
structure Anchor where
  href : Option String
deriving DecidableEq

/-- The literal prefix tested by `href.startswith("javascript:srcUp(")`. -/
def srcUpPat : List Char := "javascript:srcUp(".toList

/-- One attempted match of `javascript:srcUp\x28'([^']+)'\x29` anchored at
the start of `cs`.  The greedy non-quote run must be non-empty and be
followed by the closing quote-parenthesis pair. -/
def srcUpMatchAt (cs : List Char) : Option (List Char) :=
  if startsList (srcUpPat ++ [sqc]) cs then
    let rest := cs.drop (srcUpPat.length + 1)
    let inner := rest.takeWhile (fun c => ¬ c = sqc)
    let after := rest.dropWhile (fun c => ¬ c = sqc)
    if 1 ≤ inner.length ∧ after.take 2 = [sqc, ')'] then some inner else none
  else none

/-- `re.search` for the `srcUp` capture: leftmost match anywhere in `cs`. -/
def srcUpSearch : List Char → Option (List Char)
  | [] => none
  | c :: rest =>
    match srcUpMatchAt (c :: rest) with
    | some m => some m
    | none => srcUpSearch rest

/-- The per-anchor decision of the loop body (main.py 328-349): `some url`
means the loop returns `url`; `none` means this anchor is skipped.  `raw`
is the non-empty raw href. -/
def classifyHref (base : List Char) (raw : List Char) : Option (List Char) :=
  let href := unquote raw
  if startsList srcUpPat href then
    match srcUpSearch href with
    | some inner =>
      let decoded := unquote inner
      if decoded.head? = some '/' then some (base ++ decoded) else none
    | none => none
  else if href.head? = some '/' then some (base ++ href)
  else if startsList "http".toList href then some href
  else none

/-- Whether an anchor yields a usable href (the loop would return on it). -/
def anchorUsable (base : List Char) (a : Anchor) : Bool :=
  match a.href with
  | none => false
  | some raw => (!(raw == "")) && (classifyHref base raw.toList).isSome

/-- The `for link in links` loop of `extract_reference_link`: first anchor
with a usable href decides the result, otherwise the empty string. -/
def resolveAnchors (base : List Char) : List Anchor → List Char
  | [] => []
  | a :: rest =>
    match a.href with
    | none => resolveAnchors base rest
    | some raw =>
      if raw = "" then resolveAnchors base rest
      else
        match classifyHref base raw.toList with
        | some url => url
        | none => resolveAnchors base rest

/-- `extract_reference_link` (main.py 312-355): guard on the cell index,
guard on an empty anchor list, then the loop; all failure paths yield the
empty string, never an error. -/
def extract_reference_link (base : List Char) (row : List (List Anchor))
    (cell_index : Nat) : List Char :=
  if row.length ≤ cell_index then []
  else
    match row[cell_index]? with
    | none => []
    | some anchors =>
      if anchors = [] then []
      else resolveAnchors base anchors

theorem extract_reference_link_eq (base : List Char) (row : List (List Anchor))
    (cell_index : Nat) :
    extract_reference_link base row cell_index =
      resolveAnchors base (row[cell_index]?.getD []) := by
  unfold extract_reference_link
  by_cases h : row.length ≤ cell_index
  · rw [if_pos h]
    have : row[cell_index]? = none := by
      rw [List.getElem?_eq_none_iff]
      exact h
    rw [this]
    rfl
  · rw [if_neg h]
    cases hc : row[cell_index]? with
    | none => rfl
    | some anchors =>
      by_cases ha : anchors = []
      · subst ha
        simp [resolveAnchors]
      · simp [ha]

theorem resolveAnchors_all_unusable (base : List Char) (anchors : List Anchor)
    (h : ∀ a ∈ anchors, anchorUsable base a = false) :
    resolveAnchors base anchors = [] := by
  induction anchors with
  | nil => rfl
  | cons a rest ih =>
    have ha := h a (List.mem_cons_self a rest)
    have hrest := ih (fun x hx => h x (List.mem_cons_of_mem a hx))
    unfold resolveAnchors
    cases hhref : a.href with
    | none => exact hrest
    | some raw =>
      simp only
      by_cases hr : raw = ""
      · rw [if_pos hr]
        exact hrest
      · rw [if_neg hr]
        rw [anchorUsable, hhref] at ha
        cases hc : classifyHref base raw.toList with
        | some url =>
          exfalso
          have hc2 : classifyHref base raw.data = some url := hc
          simp [hr, hc2] at ha
        | none => exact hrest

theorem resolveAnchors_first_usable (base : List Char) (pre : List Anchor) (a : Anchor)
    (post : List Anchor) (hpre : ∀ b ∈ pre, anchorUsable base b = false)
    (ha : anchorUsable base a = true) :
    ∃ raw url, a.href = some raw ∧ ¬ raw = "" ∧ classifyHref base raw.toList = some url ∧
      resolveAnchors base (pre ++ a :: post) = url := by
  induction pre with
  | nil =>
    cases hhref : a.href with
    | none => rw [anchorUsable, hhref] at ha; simp at ha
    | some raw =>
      rw [anchorUsable, hhref] at ha
      simp only [Bool.and_eq_true, Bool.not_eq_eq_eq_not, Bool.not_true,
        beq_eq_false_iff_ne, ne_eq, Option.isSome_iff_exists] at ha
      obtain ⟨hraw, url, hc⟩ := ha
      refine ⟨raw, url, rfl, hraw, hc, ?_⟩
      simp only [List.nil_append]
      unfold resolveAnchors
      rw [hhref]
      simp only [if_neg hraw, hc]
  | cons b pre' ih =>
    obtain ⟨raw, url, h1, h2, h3, h4⟩ :=
      ih (fun x hx => hpre x (List.mem_cons_of_mem b hx))
    refine ⟨raw, url, h1, h2, h3, ?_⟩
    have hb := hpre b (List.mem_cons_self b pre')
    simp only [List.cons_append]
    unfold resolveAnchors
    cases hhref : b.href with
    | none => exact h4
    | some rawb =>
      simp only
      by_cases hr : rawb = ""
      · rw [if_pos hr]
        exact h4
      · rw [if_neg hr]
        rw [anchorUsable, hhref] at hb
        cases hc : classifyHref base rawb.toList with
        | some u =>
          exfalso
          have hc2 : classifyHref base rawb.data = some u := hc
          simp [hr, hc2] at hb
        | none => exact h4

/-- Claim C7: for every row structure and cell index, the Reference Link
Resolver returns, for the first anchor with a usable decoded href: the
base URL plus the decoded inner path when the href is a
`javascript:srcUp(...)` pseudo-navigation wrapper; the base URL plus the
href when it is root-relative; the href itself when it starts with
`http`; and the empty string when no anchor yields a usable href — a
normal result, never an error (the function is total). -/
theorem C7_reference_link_resolver (base : List Char) (row : List (List Anchor))
    (cell_index : Nat) :
    ((∀ a ∈ row[cell_index]?.getD [], anchorUsable base a = false) →
        extract_reference_link base row cell_index = [])
    ∧ (∀ pre a post, row[cell_index]?.getD [] = pre ++ a :: post →
        (∀ b ∈ pre, anchorUsable base b = false) →
        anchorUsable base a = true →
        ∀ raw, a.href = some raw →
          (startsList srcUpPat (unquote raw.toList) = true →
            ∃ inner, srcUpSearch (unquote raw.toList) = some inner ∧
              (unquote inner).head? = some '/' ∧
              extract_reference_link base row cell_index = base ++ unquote inner)
          ∧ (startsList srcUpPat (unquote raw.toList) = false →
              (unquote raw.toList).head? = some '/' →
              extract_reference_link base row cell_index = base ++ unquote raw.toList)
          ∧ (startsList srcUpPat (unquote raw.toList) = false →
              ¬ (unquote raw.toList).head? = some '/' →
              startsList "http".toList (unquote raw.toList) = true ∧
              extract_reference_link base row cell_index = unquote raw.toList)) := by
  constructor
  · intro h
    rw [extract_reference_link_eq]
    exact resolveAnchors_all_unusable base _ h
  · intro pre a post hsplit hpre ha raw hraw
    obtain ⟨raw', url, h1, h2, h3, h4⟩ := resolveAnchors_first_usable base pre a post hpre ha
    rw [hraw] at h1
    have hrr : raw = raw' := by simpa using h1
    subst hrr
    have hres : extract_reference_link base row cell_index = url := by
      rw [extract_reference_link_eq, hsplit]
      exact h4
    simp only [classifyHref] at h3
    refine ⟨?_, ?_, ?_⟩
    · intro hsu
      rw [if_pos hsu] at h3
      cases hq : srcUpSearch (unquote raw.toList) with
      | none =>
        rw [hq] at h3
        dsimp only at h3
        exact absurd h3 (by simp)
      | some inner =>
        rw [hq] at h3
        dsimp only at h3
        by_cases hh : (unquote inner).head? = some '/'
        · rw [if_pos hh] at h3
          have hu : url = base ++ unquote inner := by
            have := h3
            simp only [Option.some.injEq] at this
            exact this.symm
          exact ⟨inner, rfl, hh, by rw [hres, hu]⟩
        · rw [if_neg hh] at h3
          exact absurd h3 (by simp)
    · intro hsu hh
      rw [if_neg (by simp only [hsu]; simp), if_pos hh] at h3
      have hu : url = base ++ unquote raw.toList := by
        simpa using h3.symm
      rw [hres, hu]
    · intro hsu hh
      rw [if_neg (by simp only [hsu]; simp), if_neg hh] at h3
      by_cases hht : startsList "http".toList (unquote raw.toList) = true
      · rw [if_pos hht] at h3
        have hu : url = unquote raw.toList := by simpa using h3.symm
        exact ⟨hht, by rw [hres, hu]⟩
      · rw [if_neg hht] at h3
        exact absurd h3 (by simp)

/-- Witness for C7: a concrete cell whose single anchor carries a
percent-encoded root-relative href. -/
theorem C7_reference_link_resolver_witness :
    extract_reference_link "https://inst".toList [[], [⟨some "/p%20q"⟩]] 1 =
      "https://inst/p q".toList := by
  have h := ((C7_reference_link_resolver "https://inst".toList [[], [⟨some "/p%20q"⟩]] 1).2
      [] ⟨some "/p%20q"⟩ [] (by rfl) (by simp) (by decide) "/p%20q" rfl).2.1
      (by decide) (by decide)
  rw [h]
  decide

/-! ## Spreadsheet model (openpyxl worksheet as used by `main`, main.py 424-548)

Only the operations the program performs are modelled: 1-indexed cell
read (`ws.cell(row, column).value`), cell value / hyperlink writes, and
`ws.insert_rows(idx, amount)` which inserts blank rows so that the new
rows occupy indices `idx .. idx+amount-1`.  A row is an association list
from column number to cell; a sheet is the list of its rows (index `i`
holds row `i+1`). -/

/-- A cell: optional stored value and optional hyperlink. -/
structure Cell where
  value : Option String
  hyperlink : Option String
deriving DecidableEq

/-- The blank cell. -/
def Cell.blank : Cell := ⟨none, none⟩

/-- A sheet row: association list column ↦ cell. -/
abbrev SRow := List (Nat × Cell)

/-- A sheet: list of rows, index `i` holding spreadsheet row `i+1`. -/
abbrev Sheet := List SRow

/-- Row `r` (1-indexed); absent rows read as empty. -/
def getRow (ws : Sheet) (r : Nat) : SRow := (ws.getD (r - 1) [])

/-- Cell at row `r`, column `c`; absent cells read as blank. -/
def getCell (ws : Sheet) (r c : Nat) : Cell :=
  (dictLookup (getRow ws r) c).getD Cell.blank

/-- Replace row `r`, padding the sheet with empty rows if it is shorter
(openpyxl materialises cells on write). -/
def setRowAt (ws : Sheet) (r : Nat) (row : SRow) : Sheet :=
  (ws ++ List.replicate (r - ws.length) []).set (r - 1) row

/-- Apply `f` to the cell at `(r, c)`. -/
def modCell (ws : Sheet) (r c : Nat) (f : Cell → Cell) : Sheet :=
  setRowAt ws r (dictUpsert (getRow ws r) c (f (getCell ws r c)))

/-- `ws.cell(row=r, column=c, value=v)` / plain value assignment. -/
def setValue (ws : Sheet) (r c : Nat) (v : String) : Sheet :=
  modCell ws r c (fun cell => { cell with value := some v })

/-- `cell.hyperlink = url`. -/
def setHyperlink (ws : Sheet) (r c : Nat) (url : String) : Sheet :=
  modCell ws r c (fun cell => { cell with hyperlink := some url })

/-- `ws.insert_rows(idx, amount)`: `amount` blank rows before index `idx`. -/
def insertRows (ws : Sheet) (idx amount : Nat) : Sheet :=
  ws.take (idx - 1) ++ List.replicate amount [] ++ ws.drop (idx - 1)

/-! ### Sheet access lemmas -/

theorem getRow_eq_getElem (ws : Sheet) (r : Nat) : getRow ws r = (ws[r - 1]?).getD [] := by
  simp [getRow, List.getD_eq_getElem?_getD]

theorem getRow_setRowAt_self (ws : Sheet) (r : Nat) (row : SRow) (hr : 1 ≤ r) :
    getRow (setRowAt ws r row) r = row := by
  rw [getRow_eq_getElem, setRowAt]
  rw [List.getElem?_set_self]
  · rfl
  · rw [List.length_append, List.length_replicate]
    omega

theorem getRow_setRowAt_ne (ws : Sheet) (r r' : Nat) (row : SRow)
    (hr : 1 ≤ r) (hr' : 1 ≤ r') (hne : r' ≠ r) :
    getRow (setRowAt ws r row) r' = getRow ws r' := by
  rw [getRow_eq_getElem, getRow_eq_getElem, setRowAt]
  rw [List.getElem?_set_ne (by omega)]
  rw [List.getElem?_append]
  by_cases h : r' - 1 < ws.length
  · rw [if_pos h]
  · rw [if_neg h, List.getElem?_replicate]
    have hnone : ws[r' - 1]? = none := by
      rw [List.getElem?_eq_none_iff]
      omega
    rw [hnone]
    by_cases h2 : r' - 1 - ws.length < r - ws.length
    · rw [if_pos h2]
      rfl
    · rw [if_neg h2]

theorem getCell_modCell_self (ws : Sheet) (r c : Nat) (f : Cell → Cell) (hr : 1 ≤ r) :
    getCell (modCell ws r c f) r c = f (getCell ws r c) := by
  rw [getCell, modCell, getRow_setRowAt_self _ _ _ hr, dictLookup_upsert_self]
  rfl

theorem getCell_modCell_ne_row (ws : Sheet) (r r' c c' : Nat) (f : Cell → Cell)
    (hr : 1 ≤ r) (hr' : 1 ≤ r') (hne : r' ≠ r) :
    getCell (modCell ws r c f) r' c' = getCell ws r' c' := by
  rw [getCell, modCell, getRow_setRowAt_ne _ _ _ _ hr hr' hne, getCell]

theorem getCell_modCell_ne_col (ws : Sheet) (r c c' : Nat) (f : Cell → Cell)
    (hr : 1 ≤ r) (hne : c' ≠ c) :
    getCell (modCell ws r c f) r c' = getCell ws r c' := by
  rw [getCell, modCell, getRow_setRowAt_self _ _ _ hr,
    dictLookup_upsert_ne _ _ _ _ hne, getCell]

theorem length_insertRows (ws : Sheet) (idx n : Nat) (h : idx - 1 ≤ ws.length) :
    (insertRows ws idx n).length = ws.length + n := by
  rw [insertRows]
  simp only [List.length_append, List.length_take, List.length_replicate, List.length_drop]
  omega

theorem getRow_insertRows_lt (ws : Sheet) (idx n r : Nat) (hws : idx - 1 ≤ ws.length)
    (hr : 1 ≤ r) (h : r < idx) :
    getRow (insertRows ws idx n) r = getRow ws r := by
  rw [getRow_eq_getElem, getRow_eq_getElem, insertRows, List.append_assoc]
  have hlen : (List.take (idx - 1) ws).length = idx - 1 := by
    rw [List.length_take]
    omega
  rw [List.getElem?_append, hlen, if_pos (by omega), List.getElem?_take, if_pos (by omega)]

theorem getRow_insertRows_mid (ws : Sheet) (idx n r : Nat)
    (hws : idx - 1 ≤ ws.length) (h1 : idx ≤ r) (h2 : r < idx + n) :
    getRow (insertRows ws idx n) r = [] := by
  rw [getRow_eq_getElem, insertRows, List.append_assoc]
  have hlen : (List.take (idx - 1) ws).length = idx - 1 := by
    rw [List.length_take]
    omega
  rw [List.getElem?_append, hlen, if_neg (by omega), List.getElem?_append,
    List.length_replicate, if_pos (by omega), List.getElem?_replicate, if_pos (by omega)]
  rfl

theorem getRow_insertRows_ge (ws : Sheet) (idx n r : Nat)
    (hws : idx - 1 ≤ ws.length) (hidx1 : 1 ≤ idx) (h1 : idx + n ≤ r) :
    getRow (insertRows ws idx n) r = getRow ws (r - n) := by
  rw [getRow_eq_getElem, getRow_eq_getElem, insertRows, List.append_assoc]
  have hlen : (List.take (idx - 1) ws).length = idx - 1 := by
    rw [List.length_take]
    omega
  rw [List.getElem?_append, hlen, if_neg (by omega), List.getElem?_append,
    List.length_replicate, if_neg (by omega), List.getElem?_drop]
  have hidx : idx - 1 + (r - 1 - (idx - 1) - n) = r - n - 1 := by omega
  rw [hidx]

/-! ## Spreadsheet Merge Writer (main.py 530-548)

The body of the `if refs: ... else: ...` block of the orchestrator loop,
factored as a function returning the updated sheet and the number of rows
inserted (the quantity added to `rows_inserted`). -/

/-- The write loop (main.py 536-541): the `j`-th reference goes to row
`row + j`, type in column 9, name in column 10, hyperlink on the name cell
when the link is non-empty. -/
def writeRefs : Sheet → Nat → List Ref → Sheet
  | ws, _, [] => ws
  | ws, row, r :: rest =>
    let ws1 := setValue ws row 9 r.1
    let ws2 := setValue ws1 row 10 r.2.1
    let ws3 := if r.2.2 = "" then ws2 else setHyperlink ws2 row 10 r.2.2
    writeRefs ws3 (row + 1) rest

/-- The merge writer (main.py 530-548): attach the field URL to the label
cell of row `R`; if there are references, insert that many rows below `R`
and write them; otherwise insert one marker row.  Returns the new sheet
and the insertion count. -/
def mergeWrite (ws : Sheet) (R : Nat) (field_url : String) (refs : List Ref) :
    Sheet × Nat :=
  let ws1 := setHyperlink ws R 1 field_url
  if refs.isEmpty then
    let ws2 := insertRows ws1 (R + 1) 1
    (setValue ws2 (R + 1) 9 "No references found", 1)
  else
    let ws2 := insertRows ws1 (R + 1) refs.length
    (writeRefs ws2 (R + 1) refs, refs.length)

/-! ### Merge writer lemmas -/

theorem getCell_of_getRow_eq {ws1 ws2 : Sheet} {r : Nat}
    (h : getRow ws1 r = getRow ws2 r) (c : Nat) : getCell ws1 r c = getCell ws2 r c := by
  rw [getCell, h, getCell]

theorem getRow_modCell_ne (ws : Sheet) (r r' c : Nat) (f : Cell → Cell)
    (hr : 1 ≤ r) (hr' : 1 ≤ r') (hne : r' ≠ r) :
    getRow (modCell ws r c f) r' = getRow ws r' := by
  rw [modCell, getRow_setRowAt_ne _ _ _ _ hr hr' hne]

theorem length_setRowAt (ws : Sheet) (r : Nat) (row : SRow) :
    (setRowAt ws r row).length = max ws.length r := by
  rw [setRowAt, List.length_set, List.length_append, List.length_replicate]
  omega

theorem length_modCell (ws : Sheet) (r c : Nat) (f : Cell → Cell) :
    (modCell ws r c f).length = max ws.length r := by
  rw [modCell, length_setRowAt]

theorem writeRefs_getRow_low (refs : List Ref) (ws : Sheet) (row r' : Nat)
    (hr' : 1 ≤ r') (h : r' < row) :
    getRow (writeRefs ws row refs) r' = getRow ws r' := by
  induction refs generalizing ws row with
  | nil => rfl
  | cons r rest ih =>
    have hrow : 1 ≤ row := by omega
    show getRow (writeRefs _ (row + 1) rest) r' = getRow ws r'
    rw [ih _ (row + 1) (by omega)]
    by_cases hl : r.2.2 = ""
    · simp only [hl, if_true]
      rw [setValue, setValue, getRow_modCell_ne _ _ _ _ _ hrow hr' (by omega),
        getRow_modCell_ne _ _ _ _ _ hrow hr' (by omega)]
    · simp only [if_neg hl]
      rw [setHyperlink, setValue, setValue,
        getRow_modCell_ne _ _ _ _ _ hrow hr' (by omega),
        getRow_modCell_ne _ _ _ _ _ hrow hr' (by omega),
        getRow_modCell_ne _ _ _ _ _ hrow hr' (by omega)]

theorem writeRefs_getRow_high (refs : List Ref) (ws : Sheet) (row r' : Nat)
    (hrow : 1 ≤ row) (h : row + refs.length ≤ r') :
    getRow (writeRefs ws row refs) r' = getRow ws r' := by
  induction refs generalizing ws row with
  | nil => rfl
  | cons r rest ih =>
    have hr' : 1 ≤ r' := by
      simp only [List.length_cons] at h
      omega
    show getRow (writeRefs _ (row + 1) rest) r' = getRow ws r'
    rw [ih _ (row + 1) (by omega) (by simp only [List.length_cons] at h; omega)]
    by_cases hl : r.2.2 = ""
    · simp only [hl, if_true]
      rw [setValue, setValue, getRow_modCell_ne _ _ _ _ _ hrow hr'
          (by simp only [List.length_cons] at h; omega),
        getRow_modCell_ne _ _ _ _ _ hrow hr' (by simp only [List.length_cons] at h; omega)]
    · simp only [if_neg hl]
      rw [setHyperlink, setValue, setValue,
        getRow_modCell_ne _ _ _ _ _ hrow hr' (by simp only [List.length_cons] at h; omega),
        getRow_modCell_ne _ _ _ _ _ hrow hr' (by simp only [List.length_cons] at h; omega),
        getRow_modCell_ne _ _ _ _ _ hrow hr' (by simp only [List.length_cons] at h; omega)]

theorem writeRefs_length (refs : List Ref) (ws : Sheet) (row : Nat)
    (hrow : 1 ≤ row) (h : row + refs.length ≤ ws.length + 1) :
    (writeRefs ws row refs).length = ws.length := by
  induction refs generalizing ws row with
  | nil => rfl
  | cons r rest ih =>
    simp only [List.length_cons] at h
    have hlen3 : (if r.2.2 = "" then setValue (setValue ws row 9 r.1) row 10 r.2.1
        else setHyperlink (setValue (setValue ws row 9 r.1) row 10 r.2.1) row 10
          r.2.2).length = ws.length := by
      by_cases hl : r.2.2 = ""
      · rw [if_pos hl, setValue, setValue, length_modCell, length_modCell]
        omega
      · rw [if_neg hl, setHyperlink, setValue, setValue, length_modCell, length_modCell,
          length_modCell]
        omega
    show (writeRefs _ (row + 1) rest).length = ws.length
    rw [ih _ (row + 1) (by omega) (by rw [hlen3]; omega), hlen3]

theorem writeRefs_cells (refs : List Ref) (ws : Sheet) (row : Nat) (hrow : 1 ≤ row) :
    ∀ k, ∀ h : k < refs.length,
      (getCell (writeRefs ws row refs) (row + k) 9).value = some (refs.get ⟨k, h⟩).1
      ∧ (getCell (writeRefs ws row refs) (row + k) 10).value = some (refs.get ⟨k, h⟩).2.1
      ∧ (getCell (writeRefs ws row refs) (row + k) 10).hyperlink =
          (if (refs.get ⟨k, h⟩).2.2 = "" then (getCell ws (row + k) 10).hyperlink
           else some (refs.get ⟨k, h⟩).2.2) := by
  induction refs generalizing ws row with
  | nil =>
    intro k h
    simp at h
  | cons r rest ih =>
    intro k h
    cases k with
    | zero =>
      have hlow : getRow (writeRefs
          (if r.2.2 = "" then setValue (setValue ws row 9 r.1) row 10 r.2.1
           else setHyperlink (setValue (setValue ws row 9 r.1) row 10 r.2.1) row 10 r.2.2)
          (row + 1) rest) row =
          getRow (if r.2.2 = "" then setValue (setValue ws row 9 r.1) row 10 r.2.1
           else setHyperlink (setValue (setValue ws row 9 r.1) row 10 r.2.1) row 10 r.2.2)
          row :=
        writeRefs_getRow_low rest _ (row + 1) row hrow (by omega)
      have hunfold : writeRefs ws row (r :: rest) = writeRefs
          (if r.2.2 = "" then setValue (setValue ws row 9 r.1) row 10 r.2.1
           else setHyperlink (setValue (setValue ws row 9 r.1) row 10 r.2.1) row 10 r.2.2)
          (row + 1) rest := rfl
      rw [hunfold]
      simp only [Nat.add_zero]
      refine ⟨?_, ?_, ?_⟩
      · rw [getCell_of_getRow_eq hlow]
        by_cases hl : r.2.2 = ""
        · rw [if_pos hl, setValue, setValue,
            getCell_modCell_ne_col _ _ _ _ _ hrow (by omega),
            getCell_modCell_self _ _ _ _ hrow]
          rfl
        · rw [if_neg hl, setHyperlink, setValue, setValue,
            getCell_modCell_ne_col _ _ _ _ _ hrow (by omega),
            getCell_modCell_ne_col _ _ _ _ _ hrow (by omega),
            getCell_modCell_self _ _ _ _ hrow]
          rfl
      · rw [getCell_of_getRow_eq hlow]
        by_cases hl : r.2.2 = ""
        · rw [if_pos hl, setValue, setValue, getCell_modCell_self _ _ _ _ hrow]
          rfl
        · rw [if_neg hl, setHyperlink, setValue, setValue,
            getCell_modCell_self _ _ _ _ hrow,
            getCell_modCell_self _ _ _ _ hrow]
          rfl
      · rw [getCell_of_getRow_eq hlow]
        have hget : ((r :: rest).get ⟨0, h⟩) = r := rfl
        rw [hget]
        by_cases hl : r.2.2 = ""
        · rw [if_pos hl, setValue, setValue, getCell_modCell_self _ _ _ _ hrow,
            if_pos hl]
          show (getCell (modCell ws row 9 _) row 10).hyperlink = _
          rw [getCell_modCell_ne_col _ _ _ _ _ hrow (by omega)]
        · rw [if_neg hl, setHyperlink, setValue, setValue,
            getCell_modCell_self _ _ _ _ hrow, if_neg hl]
    | succ k =>
      simp only [List.length_cons, Nat.succ_lt_succ_iff] at h
      have harith : row + (k + 1) = (row + 1) + k := by omega
      have hmain := ih
        (if r.2.2 = "" then setValue (setValue ws row 9 r.1) row 10 r.2.1
         else setHyperlink (setValue (setValue ws row 9 r.1) row 10 r.2.1) row 10 r.2.2)
        (row + 1) (by omega) k h
      have hcell : getCell
          (if r.2.2 = "" then setValue (setValue ws row 9 r.1) row 10 r.2.1
           else setHyperlink (setValue (setValue ws row 9 r.1) row 10 r.2.1) row 10 r.2.2)
          ((row + 1) + k) 10 = getCell ws ((row + 1) + k) 10 := by
        by_cases hl : r.2.2 = ""
        · rw [if_pos hl, setValue, setValue,
            getCell_modCell_ne_row _ _ _ _ _ _ hrow (by omega) (by omega),
            getCell_modCell_ne_row _ _ _ _ _ _ hrow (by omega) (by omega)]
        · rw [if_neg hl, setHyperlink, setValue, setValue,
            getCell_modCell_ne_row _ _ _ _ _ _ hrow (by omega) (by omega),
            getCell_modCell_ne_row _ _ _ _ _ _ hrow (by omega) (by omega),
            getCell_modCell_ne_row _ _ _ _ _ _ hrow (by omega) (by omega)]
      rw [hcell] at hmain
      have hunfold : writeRefs ws row (r :: rest) = writeRefs
          (if r.2.2 = "" then setValue (setValue ws row 9 r.1) row 10 r.2.1
           else setHyperlink (setValue (setValue ws row 9 r.1) row 10 r.2.1) row 10 r.2.2)
          (row + 1) rest := rfl
      rw [hunfold, harith]
      exact hmain

/-- Claim C3: for a target row `R` and `N ≥ 1` filtered references, the
Merge Writer inserts exactly `N` rows at `R+1 .. R+N` (type in column 9,
name in column 10, hyperlink on the name cell when the link is non-empty)
and reports insertion count `N`; for an empty sequence it inserts exactly
one row at `R+1` carrying the sentinel marker in column 9 and reports 1.
Rows before `R` are untouched and rows after the insertion block are the
old rows shifted down by the reported count. -/
theorem C3_merge_writer (ws : Sheet) (R : Nat) (url : String) (refs : List Ref)
    (hR : 1 ≤ R) (hRlen : R ≤ ws.length) :
    ((mergeWrite ws R url refs).2 = if refs.isEmpty then 1 else refs.length)
    ∧ (mergeWrite ws R url refs).1.length = ws.length + (mergeWrite ws R url refs).2
    ∧ (refs = [] →
        (getCell (mergeWrite ws R url refs).1 (R + 1) 9).value
          = some "No references found")
    ∧ (∀ k, ∀ h : k < refs.length,
        (getCell (mergeWrite ws R url refs).1 (R + 1 + k) 9).value
            = some (refs.get ⟨k, h⟩).1
        ∧ (getCell (mergeWrite ws R url refs).1 (R + 1 + k) 10).value
            = some (refs.get ⟨k, h⟩).2.1
        ∧ (getCell (mergeWrite ws R url refs).1 (R + 1 + k) 10).hyperlink =
            (if (refs.get ⟨k, h⟩).2.2 = "" then none else some (refs.get ⟨k, h⟩).2.2))
    ∧ (∀ r, 1 ≤ r → r < R → getRow (mergeWrite ws R url refs).1 r = getRow ws r)
    ∧ (∀ r, R + (mergeWrite ws R url refs).2 < r →
        getRow (mergeWrite ws R url refs).1 r
          = getRow ws (r - (mergeWrite ws R url refs).2)) := by
  have hws1len : (setHyperlink ws R 1 url).length = ws.length := by
    rw [setHyperlink, length_modCell]
    omega
  by_cases hempty : refs.isEmpty
  · have hrefs : refs = [] := List.isEmpty_iff.mp hempty
    have hm : mergeWrite ws R url refs =
        (setValue (insertRows (setHyperlink ws R 1 url) (R + 1) 1) (R + 1) 9
          "No references found", 1) := by
      simp [mergeWrite, hempty]
    have hlen2 : (insertRows (setHyperlink ws R 1 url) (R + 1) 1).length
        = ws.length + 1 := by
      rw [length_insertRows _ _ _ (by omega), hws1len]
    rw [hm]
    refine ⟨by simp [hempty], ?_, ?_, ?_, ?_, ?_⟩
    · rw [setValue, length_modCell, hlen2]
      omega
    · intro _
      rw [setValue, getCell_modCell_self _ _ _ _ (by omega)]
    · intro k hk
      rw [hrefs] at hk
      simp at hk
    · intro r hr1 hrR
      rw [setValue, getRow_modCell_ne _ _ _ _ _ (by omega) hr1 (by omega),
        getRow_insertRows_lt _ _ _ _ (by omega) hr1 (by omega),
        setHyperlink, getRow_modCell_ne _ _ _ _ _ hR hr1 (by omega)]
    · intro r hr
      rw [setValue, getRow_modCell_ne _ _ _ _ _ (by omega) (by omega) (by omega),
        getRow_insertRows_ge _ _ _ _ (by omega) (by omega) (by omega),
        setHyperlink, getRow_modCell_ne _ _ _ _ _ hR (by omega) (by omega)]
  · have hne : ¬ refs = [] := by
      intro hh
      rw [hh] at hempty
      exact hempty rfl
    have hm : mergeWrite ws R url refs =
        (writeRefs (insertRows (setHyperlink ws R 1 url) (R + 1) refs.length)
          (R + 1) refs, refs.length) := by
      simp [mergeWrite, hempty]
    have hlen2 : (insertRows (setHyperlink ws R 1 url) (R + 1) refs.length).length
        = ws.length + refs.length := by
      rw [length_insertRows _ _ _ (by omega), hws1len]
    have hN1 : 1 ≤ refs.length := by
      cases refs with
      | nil => exact absurd rfl hne
      | cons a l => simp
    rw [hm]
    refine ⟨by simp [hempty], ?_, ?_, ?_, ?_, ?_⟩
    · rw [writeRefs_length _ _ _ (by omega) (by omega), hlen2]
    · intro hh
      exact absurd hh hne
    · intro k hk
      have hcells := writeRefs_cells refs
        (insertRows (setHyperlink ws R 1 url) (R + 1) refs.length) (R + 1)
        (by omega) k hk
      have hblank : getCell (insertRows (setHyperlink ws R 1 url) (R + 1) refs.length)
          (R + 1 + k) 10 = Cell.blank := by
        rw [getCell, getRow_insertRows_mid _ _ _ _ (by omega) (by omega) (by omega)]
        rfl
      rw [hblank] at hcells
      exact ⟨hcells.1, hcells.2.1, hcells.2.2⟩
    · intro r hr1 hrR
      rw [writeRefs_getRow_low _ _ _ _ hr1 (by omega),
        getRow_insertRows_lt _ _ _ _ (by omega) hr1 (by omega),
        setHyperlink, getRow_modCell_ne _ _ _ _ _ hR hr1 (by omega)]
    · intro r hr
      rw [writeRefs_getRow_high _ _ _ _ (by omega) (by omega),
        getRow_insertRows_ge _ _ _ _ (by omega) (by omega) (by omega),
        setHyperlink, getRow_modCell_ne _ _ _ _ _ hR (by omega) (by omega)]

/-- Witness for C3 on a one-row sheet and a single reference. -/
theorem C3_merge_writer_witness :
    (mergeWrite [[]] 1 "u" [("Layout", "L", "x")]).2 = 1
    ∧ (getCell (mergeWrite [[]] 1 "u" [("Layout", "L", "x")]).1 2 9).value
        = some "Layout" := by
  have h := C3_merge_writer [[]] 1 "u" [("Layout", "L", "x")] (by decide) (by decide)
  refine ⟨?_, ?_⟩
  · rw [h.1]
    rfl
  · have hc := (h.2.2.2.1 0 (by decide)).1
    simpa using hc

/-! ## Run Orchestrator pre-scan (`main`, main.py 437-464) -/

/-- A unit of work: one spreadsheet field row. -/
structure WorkItem where
  label : String
  api_name : String
  original_row : Nat
deriving DecidableEq

/-- Python truthiness of a cell value (openpyxl returns `None` for an
empty cell; the empty string is also falsy). -/
def truthy (c : Cell) : Bool :=
  match c.value with
  | none => false
  | some s => !(s == "")

/-- The pre-scan loop (main.py 452-464): from `start_row` for at most
`limit` rows (all remaining rows when no limit), keep rows with a truthy
API name (column 2) and label (column 1) whose following row's column 9 —
the "already processed" marker — is falsy. -/
def buildWork (ws : Sheet) (start_row : Nat) (limit : Option Nat) : List WorkItem :=
  let lim := limit.getD (ws.length - start_row + 1)
  let end_row := start_row + lim
  (List.range' start_row (min end_row (ws.length + 1) - start_row)).filterMap
    (fun r =>
      if truthy (getCell ws r 2) && truthy (getCell ws r 1)
          && !(truthy (getCell ws (r + 1) 9)) then
        some ⟨((getCell ws r 1).value).getD "", ((getCell ws r 2).value).getD "", r⟩
      else none)

/-- Claim C6: the pre-scan includes a row only if the "already processed"
marker (column 9 of the following row) is empty; a row whose marker is
populated contributes no WorkItem, so a second run skips it. -/
theorem C6_prescan_skips_processed (ws : Sheet) (start_row : Nat) (limit : Option Nat) :
    (∀ w ∈ buildWork ws start_row limit,
      truthy (getCell ws (w.original_row + 1) 9) = false)
    ∧ (∀ r, truthy (getCell ws (r + 1) 9) = true →
        ∀ w ∈ buildWork ws start_row limit, w.original_row ≠ r) := by
  have hmain : ∀ w ∈ buildWork ws start_row limit,
      truthy (getCell ws (w.original_row + 1) 9) = false := by
    intro w hw
    unfold buildWork at hw
    obtain ⟨r, hr, hsome⟩ := List.mem_filterMap.mp hw
    by_cases hcond : (truthy (getCell ws r 2) && truthy (getCell ws r 1)
        && !(truthy (getCell ws (r + 1) 9))) = true
    · rw [if_pos hcond] at hsome
      obtain rfl : w = ⟨((getCell ws r 1).value).getD "", ((getCell ws r 2).value).getD "", r⟩ := by
        simpa using hsome.symm
      simp only [Bool.and_eq_true, Bool.not_eq_eq_eq_not, Bool.not_true] at hcond
      exact hcond.2
    · rw [if_neg hcond] at hsome
      exact absurd hsome (by simp)
  refine ⟨hmain, ?_⟩
  intro r hr w hw hwr
  have := hmain w hw
  rw [hwr, hr] at this
  exact Bool.noConfusion this

/-- Witness for C6: a sheet whose first field row carries a marker below
it (skipped) and whose second does not (kept). -/
theorem C6_prescan_skips_processed_witness :
    truthy (getCell
      [[], [(1, (⟨some "A", none⟩ : Cell)), (2, ⟨some "A2", none⟩)],
        [(1, ⟨some "B", none⟩), (2, ⟨some "B2", none⟩), (9, ⟨some "X", none⟩)]]
      (3 + 1) 9) = false :=
  (C6_prescan_skips_processed _ 2 none).1 ⟨"B", "B2", 3⟩ (by decide)

/-! ## Run Orchestrator loop (main.py 511-564)

Per field the browser environment yields one outcome: the dependency page
was reached and parsed (`found`, carrying the field URL and the filtered
references), the field was skipped (`find_field_and_get_dependencies`
returned false), an exception occurred but the recovery renavigation
succeeded, or the recovery itself failed (the loop breaks). -/

/-- Environment outcome of one field attempt. -/
inductive FieldOutcome where
  | found (url : String) (refs : List Ref)
  | skipped
  | errorRecovered
  | errorFatal
deriving DecidableEq

/-- The amount added to `rows_inserted` by one outcome. -/
def insCount : FieldOutcome → Nat
  | .found _ refs => if refs.isEmpty then 1 else refs.length
  | _ => 0

/-- Whether the outcome breaks the loop (failed recovery, main.py 561-563). -/
def isFatal : FieldOutcome → Bool
  | .errorFatal => true
  | _ => false

/-- One loop iteration (main.py 513-564): on `found`, the merge writer
runs at `original_row + rows_inserted` and its count is added to
`rows_inserted`; every other outcome leaves sheet and offset unchanged. -/
def procField (ws : Sheet) (off : Nat) (f : WorkItem) (o : FieldOutcome) : Sheet × Nat :=
  match o with
  | .found url refs =>
    let res := mergeWrite ws (f.original_row + off) url refs
    (res.1, off + res.2)
  | _ => (ws, off)

/-- The whole `for` loop, stopping at a fatal outcome. -/
def runFields : Sheet → Nat → List (WorkItem × FieldOutcome) → Sheet × Nat
  | ws, off, [] => (ws, off)
  | ws, off, (f, o) :: rest =>
    if isFatal o then (ws, off)
    else
      let p := procField ws off f o
      runFields p.1 p.2 rest

/-- Sum of insertion counts over the processed prefix of the work list. -/
def sumCounts : List (WorkItem × FieldOutcome) → Nat
  | [] => 0
  | (_, o) :: rest => if isFatal o then 0 else insCount o + sumCounts rest

/-- Helper: the insertion count reported by the merge writer. -/
theorem mergeWrite_count (ws : Sheet) (R : Nat) (url : String) (refs : List Ref) :
    (mergeWrite ws R url refs).2 = if refs.isEmpty then 1 else refs.length := by
  by_cases hempty : refs.isEmpty
  · simp [mergeWrite, hempty]
  · simp [mergeWrite, hempty]

/-- Helper: type-column contents of the inserted block (non-empty case). -/
theorem mergeWrite_cells9 (ws : Sheet) (R : Nat) (url : String) (refs : List Ref)
    (hR : 1 ≤ R) :
    ∀ k, ∀ h : k < refs.length,
      (getCell (mergeWrite ws R url refs).1 (R + 1 + k) 9).value
        = some (refs.get ⟨k, h⟩).1 := by
  intro k hk
  have hne : ¬ refs.isEmpty := by
    cases refs with
    | nil => simp at hk
    | cons a l => simp
  have hm : (mergeWrite ws R url refs).1 =
      writeRefs (insertRows (setHyperlink ws R 1 url) (R + 1) refs.length)
        (R + 1) refs := by
    simp [mergeWrite, hne]
  rw [hm]
  exact (writeRefs_cells refs _ (R + 1) (by omega) k hk).1

/-- Helper: the sentinel marker cell (empty case). -/
theorem mergeWrite_marker (ws : Sheet) (R : Nat) (url : String)
    (hR : 1 ≤ R) :
    (getCell (mergeWrite ws R url []).1 (R + 1) 9).value
      = some "No references found" := by
  have hm : (mergeWrite ws R url []).1 =
      setValue (insertRows (setHyperlink ws R 1 url) (R + 1) 1) (R + 1) 9
        "No references found" := by
    simp [mergeWrite]
  rw [hm, setValue, getCell_modCell_self _ _ _ _ (by omega)]

/-- Helper: the offset after the loop is the initial offset plus the sum
of processed insertion counts. -/
theorem runFields_snd (items : List (WorkItem × FieldOutcome)) (ws : Sheet) (off : Nat) :
    (runFields ws off items).2 = off + sumCounts items := by
  induction items generalizing ws off with
  | nil => rfl
  | cons p rest ih =>
    obtain ⟨f, o⟩ := p
    by_cases hf : isFatal o
    · simp [runFields, hf, sumCounts]
    · have hcount : (procField ws off f o).2 = off + insCount o := by
        cases o with
        | found url refs =>
          show (off + (mergeWrite ws (f.original_row + off) url refs).2) = _
          rw [mergeWrite_count]
          rfl
        | skipped => rfl
        | errorRecovered => rfl
        | errorFatal => simp [isFatal] at hf
      have hrun : runFields ws off ((f, o) :: rest) =
          runFields (procField ws off f o).1 (procField ws off f o).2 rest := by
        simp [runFields, hf]
      rw [hrun, ih, hcount, sumCounts]
      simp [hf]
      omega

/-- Outcome (a) of the per-WorkItem trichotomy: references written
starting at `original_row + off + 1`, offset increased by their number. -/
def OutcomeRefs (ws : Sheet) (off : Nat) (f : WorkItem) (o : FieldOutcome) : Prop :=
  ∃ url refs, o = .found url refs ∧ refs ≠ [] ∧
    (procField ws off f o).2 = off + refs.length ∧
    (1 ≤ f.original_row + off →
      ∀ k, ∀ h : k < refs.length,
        (getCell (procField ws off f o).1 (f.original_row + off + 1 + k) 9).value
          = some (refs.get ⟨k, h⟩).1)

/-- Outcome (b): a single marker row written at `original_row + off + 1`,
offset increased by one. -/
def OutcomeMarker (ws : Sheet) (off : Nat) (f : WorkItem) (o : FieldOutcome) : Prop :=
  ∃ url, o = .found url [] ∧ (procField ws off f o).2 = off + 1 ∧
    (1 ≤ f.original_row + off →
      (getCell (procField ws off f o).1 (f.original_row + off + 1) 9).value
        = some "No references found")

/-- Outcome (c): the field was skipped (or errored), sheet and offset
unchanged. -/
def OutcomeSkip (ws : Sheet) (off : Nat) (f : WorkItem) (o : FieldOutcome) : Prop :=
  (o = .skipped ∨ o = .errorRecovered ∨ o = .errorFatal) ∧
    procField ws off f o = (ws, off)

/-- Claim C1: per WorkItem exactly one of the three outcomes (references
written at `source_row + RowOffset + 1` with RowOffset increased by their
count; single marker row with RowOffset increased by one; skip with
RowOffset unchanged) holds; RowOffset is monotonically non-decreasing over
the run, and after any processed prefix it equals the initial offset plus
the sum of the per-field insertion counts. -/
theorem C1_orchestrator_invariant (ws : Sheet) (off : Nat)
    (items : List (WorkItem × FieldOutcome)) (f : WorkItem) (o : FieldOutcome) :
    ((OutcomeRefs ws off f o ∧ ¬ OutcomeMarker ws off f o ∧ ¬ OutcomeSkip ws off f o)
      ∨ (¬ OutcomeRefs ws off f o ∧ OutcomeMarker ws off f o ∧ ¬ OutcomeSkip ws off f o)
      ∨ (¬ OutcomeRefs ws off f o ∧ ¬ OutcomeMarker ws off f o ∧ OutcomeSkip ws off f o))
    ∧ (runFields ws off items).2 = off + sumCounts items
    ∧ off ≤ (runFields ws off items).2 := by
  refine ⟨?_, runFields_snd items ws off, ?_⟩
  · cases o with
    | found url refs =>
      cases refs with
      | nil =>
        refine Or.inr (Or.inl ⟨?_, ?_, ?_⟩)
        · rintro ⟨url', refs', heq, hne, -, -⟩
          injection heq with h1 h2
          exact hne h2.symm
        · refine ⟨url, rfl, ?_, ?_⟩
          · show off + (mergeWrite ws (f.original_row + off) url []).2 = off + 1
            rw [mergeWrite_count]
            rfl
          · intro hge
            exact mergeWrite_marker ws (f.original_row + off) url hge
        · rintro ⟨h1 | h1 | h1, -⟩ <;> exact FieldOutcome.noConfusion h1
      | cons r0 rrest =>
        refine Or.inl ⟨?_, ?_, ?_⟩
        · refine ⟨url, r0 :: rrest, rfl, by simp, ?_, ?_⟩
          · show off + (mergeWrite ws (f.original_row + off) url (r0 :: rrest)).2 = _
            rw [mergeWrite_count]
            rfl
          · intro hge k hk
            exact mergeWrite_cells9 ws (f.original_row + off) url (r0 :: rrest) hge k hk
        · rintro ⟨url', heq, -, -⟩
          injection heq with h1 h2
          exact List.noConfusion h2
        · rintro ⟨h1 | h1 | h1, -⟩ <;> exact FieldOutcome.noConfusion h1
    | skipped =>
      refine Or.inr (Or.inr ⟨?_, ?_, ⟨Or.inl rfl, rfl⟩⟩)
      · rintro ⟨url', refs', heq, -, -, -⟩
        exact FieldOutcome.noConfusion heq
      · rintro ⟨url', heq, -, -⟩
        exact FieldOutcome.noConfusion heq
    | errorRecovered =>
      refine Or.inr (Or.inr ⟨?_, ?_, ⟨Or.inr (Or.inl rfl), rfl⟩⟩)
      · rintro ⟨url', refs', heq, -, -, -⟩
        exact FieldOutcome.noConfusion heq
      · rintro ⟨url', heq, -, -⟩
        exact FieldOutcome.noConfusion heq
    | errorFatal =>
      refine Or.inr (Or.inr ⟨?_, ?_, ⟨Or.inr (Or.inr rfl), rfl⟩⟩)
      · rintro ⟨url', refs', heq, -, -, -⟩
        exact FieldOutcome.noConfusion heq
      · rintro ⟨url', heq, -, -⟩
        exact FieldOutcome.noConfusion heq
  · rw [runFields_snd items ws off]
    omega

/-- Witness for C1 on a two-item run: one field with two references, one
skipped field. -/
theorem C1_orchestrator_invariant_witness :
    (runFields [[], []] 0
      [(⟨"A", "A2", 2⟩, .found "u" [("Layout", "L", ""), ("Flow", "F", "x")]),
       (⟨"B", "B2", 3⟩, .skipped)]).2 = 0 + sumCounts
      [(⟨"A", "A2", 2⟩, .found "u" [("Layout", "L", ""), ("Flow", "F", "x")]),
       (⟨"B", "B2", 3⟩, .skipped)] :=
  (C1_orchestrator_invariant [[], []] 0
    [(⟨"A", "A2", 2⟩, .found "u" [("Layout", "L", ""), ("Flow", "F", "x")]),
     (⟨"B", "B2", 3⟩, .skipped)] ⟨"A", "A2", 2⟩ .skipped).2.1

/-! ## Whole-run model (`main`, main.py 424-579)

`main`'s effectful milestones are modelled by an environment: whether the
file exists, whether the workbook/sheet loads, the CLI options, whether an
exception interrupts the browser section before the object-id check, the
URL seen when extracting the object id, and the per-field outcomes.  The
result records how many times `wb.save` runs and the sheet it would
write.  The `return` statements at main.py 435, 449-450, 467-468 and
508-509 leave `main` before the save at main.py 574-577; the `break` at
563 and the except at 565 fall through to it. -/

/-- Environment of one run. -/
structure RunEnv where
  file_exists : Bool
  sheet_ok : Bool
  sheet : Sheet
  start_at_label : Option String
  limit : Option Nat
  cli_object_id : Option (List Char)
  pre_loop_exception : Bool
  nav_url : List Char
  outcomes : List FieldOutcome

/-- Result of one run: number of `wb.save` calls and the saved sheet. -/
structure RunResult where
  savedCount : Nat
  finalSheet : Sheet
deriving DecidableEq

/-- The start-row search (main.py 440-450): label rows 2..max_row, first
row whose truthy label strips to the argument; `none` aborts the run. -/
def findStartRow (ws : Sheet) (lbl : String) : Option Nat :=
  (List.range' 2 (ws.length - 1)).find? (fun r =>
    match (getCell ws r 1).value with
    | none => false
    | some s => !(s == "") && (s.trim == lbl.trim))

/-- Start row: the label search result when a label is given, else row 2
(main.py 438-450). -/
def startRowOf (env : RunEnv) : Option Nat :=
  match env.start_at_label with
  | none => some 2
  | some lbl => findStartRow env.sheet lbl

/-- Object-id resolution (main.py 498-509): the CLI-provided id wins,
else the id is extracted from the navigation URL. -/
def resolveObjectId (env : RunEnv) : Option (List Char) :=
  match env.cli_object_id with
  | some oid => some oid
  | none => extract_object_id_from_url env.nav_url

/-- The control flow of `main` (main.py 424-579). -/
def mainRun (env : RunEnv) : RunResult :=
  if ¬ env.file_exists then ⟨0, env.sheet⟩
  else if ¬ env.sheet_ok then ⟨0, env.sheet⟩
  else
    match startRowOf env with
    | none => ⟨0, env.sheet⟩
    | some start_row =>
      let work := buildWork env.sheet start_row env.limit
      if work.isEmpty then ⟨0, env.sheet⟩
      else if env.pre_loop_exception then ⟨1, env.sheet⟩
      else
        match resolveObjectId env with
        | none => ⟨0, env.sheet⟩
        | some _ => ⟨1, (runFields env.sheet 0 (work.zip env.outcomes)).1⟩

/-- Claim C8 as stated is false: a run over a loaded workbook with an
explicitly provided object id but an empty WorkItem list attempts no save,
although none of the three listed fatal conditions (missing file,
unreadable sheet, unresolved object identifier) holds. -/
theorem C8_counterexample_no_save_on_empty_worklist :
    (RunEnv.file_exists ⟨true, true, [[]], none, none, some "a".toList, false, [], []⟩
        = true)
    ∧ (RunEnv.sheet_ok ⟨true, true, [[]], none, none, some "a".toList, false, [], []⟩
        = true)
    ∧ (resolveObjectId ⟨true, true, [[]], none, none, some "a".toList, false, [], []⟩
        = some "a".toList)
    ∧ (mainRun ⟨true, true, [[]], none, none, some "a".toList, false, [], []⟩).savedCount
        = 0 := by
  refine ⟨rfl, rfl, rfl, ?_⟩
  rfl

/-- Claim C8, amended: if the run reaches the field loop (file present,
sheet readable, start row found, non-empty WorkItem list, no exception
before the object-id check, object id resolved) the document is saved
exactly once, at the very end, with the sheet produced by the whole loop —
also when a fatal recovery failure halts the loop.  The save is skipped
exactly when the file is missing, the sheet unreadable, the start label
not found, the WorkItem list empty, or the object id unresolved without an
earlier browser exception. -/
theorem C8_save_exactly_once (env : RunEnv) :
    ((mainRun env).savedCount ≤ 1)
    ∧ (∀ s, env.file_exists = true → env.sheet_ok = true →
        startRowOf env = some s →
        (buildWork env.sheet s env.limit).isEmpty = false →
        env.pre_loop_exception = false →
        (resolveObjectId env).isSome = true →
        mainRun env = ⟨1,
          (runFields env.sheet 0
            ((buildWork env.sheet s env.limit).zip env.outcomes)).1⟩)
    ∧ ((mainRun env).savedCount = 0 ↔
        (env.file_exists = false ∨ env.sheet_ok = false
          ∨ startRowOf env = none
          ∨ (∃ s, startRowOf env = some s
              ∧ (buildWork env.sheet s env.limit).isEmpty = true)
          ∨ (∃ s, startRowOf env = some s
              ∧ (buildWork env.sheet s env.limit).isEmpty = false
              ∧ env.pre_loop_exception = false
              ∧ resolveObjectId env = none))) := by
  refine ⟨?_, ?_, ?_⟩
  · unfold mainRun
    by_cases h1 : env.file_exists
    · by_cases h2 : env.sheet_ok
      · simp only [h1, h2, not_true, if_false]
        cases hs : startRowOf env with
        | none => simp
        | some s =>
          by_cases h3 : (buildWork env.sheet s env.limit).isEmpty
          · simp [h3]
          · by_cases h4 : env.pre_loop_exception
            · simp [h3, h4]
            · cases hr : resolveObjectId env with
              | none => simp [h3, h4, hr]
              | some oid => simp [h3, h4, hr]
      · simp [h1, h2]
    · simp [h1]
  · intro s h1 h2 hs h3 h4 h5
    cases hr : resolveObjectId env with
    | none => rw [hr] at h5; exact absurd h5 (by simp)
    | some oid =>
      unfold mainRun
      rw [hs]
      simp [h1, h2, h3, h4, hr]
  · unfold mainRun
    by_cases h1 : env.file_exists
    · by_cases h2 : env.sheet_ok
      · cases hs : startRowOf env with
        | none => simp [h1, h2]
        | some s =>
          by_cases h3 : (buildWork env.sheet s env.limit).isEmpty
          · have heq := List.isEmpty_iff.mp h3
            simp [h1, h2, h3, hs, heq]
          · have hne : ¬ buildWork env.sheet s env.limit = [] := by
              intro hh
              rw [hh] at h3
              exact h3 rfl
            by_cases h4 : env.pre_loop_exception
            · cases hr : resolveObjectId env with
              | none => simp [h1, h2, h3, h4, hs, hr, hne]
              | some oid => simp [h1, h2, h3, h4, hs, hr, hne]
            · cases hr : resolveObjectId env with
              | none => simp [h1, h2, h3, h4, hs, hr, hne]
              | some oid => simp [h1, h2, h3, h4, hs, hr, hne]
      · simp [h1, h2]
    · simp [h1]

/-- Witness for C8 on a run with one processable field. -/
theorem C8_save_exactly_once_witness :
    (mainRun ⟨true, true, [[], [(1, ⟨some "A", none⟩), (2, ⟨some "A2", none⟩)]],
      none, none, some "a".toList, false, [], [.skipped]⟩).savedCount = 1 := by
  have h := (C8_save_exactly_once ⟨true, true,
      [[], [(1, ⟨some "A", none⟩), (2, ⟨some "A2", none⟩)]],
      none, none, some "a".toList, false, [], [.skipped]⟩).2.1 2 rfl rfl (by rfl)
      (by decide) rfl (by rfl)
  rw [h]

/-! ## Field search and click (main.py 149-264, 68-96)

The DOM is modelled by the per-selector result lists the page would give:
`click_field_from_table` builds four selectors from the label and asks the
page for each in turn; an empty list models the PWTimeout `continue`. -/

/-- Python `pat in s` on character lists. -/
def containsPat (pat : List Char) : List Char → Bool
  | [] => startsList pat []
  | c :: rest => startsList pat (c :: rest) || containsPat pat rest

/-- Suffix after the first occurrence of `pat` (`s.split(pat)[1]` up to
the truncation applied separately). -/
def dropThroughPat (pat : List Char) : List Char → Option (List Char)
  | [] => if startsList pat [] then some [] else none
  | c :: rest =>
    if startsList pat (c :: rest) then some ((c :: rest).drop pat.length)
    else dropThroughPat pat rest

/-- Prefix up to (excluding) the next occurrence of `pat` — `split(pat)`
ends the `[1]` part at the second occurrence. -/
def takeUntilPat (pat : List Char) : List Char → List Char
  | [] => []
  | c :: rest =>
    if startsList pat (c :: rest) then [] else c :: takeUntilPat pat rest

/-- One attempted match of `/(00N[a-zA-Z0-9]{12,15})` anchored at the
start: a slash, the literal `00N`, then greedily up to 15 alphanumerics,
at least 12. -/
def fieldIdMatchAt : List Char → Option (List Char)
  | '/' :: rest =>
    if startsList "00N".toList rest then
      let run := (rest.drop 3).takeWhile isAlnum
      if 12 ≤ run.length then some ("00N".toList ++ run.take 15) else none
    else none
  | _ => none

/-- `re.search` for the field-id pattern: leftmost match. -/
def fieldIdSearch : List Char → Option (List Char)
  | [] => none
  | c :: rest =>
    match fieldIdMatchAt (c :: rest) with
    | some m => some m
    | none => fieldIdSearch rest

/-- `extract_field_id_from_url` (main.py 68-96): direct path pattern
first, then the pattern inside the URL-decoded `address` query parameter. -/
def extract_field_id_from_url (url : List Char) : Option (List Char) :=
  match fieldIdSearch url with
  | some fid => some fid
  | none =>
    if containsPat "address=".toList url then
      match dropThroughPat "address=".toList url with
      | some after =>
        let seg := takeUntilPat "address=".toList after
        let addr := seg.takeWhile (fun c => ¬ c = '&')
        fieldIdSearch (unquote addr)
      | none => none
    else none

/-- A link in the filtered results table: visible text and the URL the
click navigates to. -/
structure SLink where
  text : String
  url : List Char
deriving DecidableEq

/-- Python `str.lower()` (ASCII as used here), on the character data so
that concrete instances evaluate by kernel reduction. -/
def pyLower (s : String) : String := ⟨s.data.map Char.toLower⟩

/-- Python `str.strip()`: drop leading and trailing whitespace. -/
def pyStrip (s : String) : String :=
  ⟨((s.data.dropWhile Char.isWhitespace).reverse.dropWhile Char.isWhitespace).reverse⟩

/-- The inner loop of `click_field_from_table` (main.py 230-254): first
link whose stripped text equals the field LABEL case-insensitively. -/
def clickScan (field_label : String) : List SLink → Option SLink
  | [] => none
  | l :: rest =>
    if pyLower (pyStrip l.text) = pyLower field_label then some l
    else clickScan field_label rest

/-- `click_field_from_table` (main.py 198-264): try each selector's result
list in order (an empty list is the PWTimeout `continue`); in the first
list with a match, click that link and extract the field id from the
resulting URL, returning immediately whether or not extraction succeeds.
Returns the clicked link, if any, and the extracted id.  `field_api_name`
is received but plays no part in the match. -/
def click_field_from_table : List (List SLink) → String → String →
    Option SLink × Option (List Char)
  | [], _, _ => (none, none)
  | links :: rest, field_label, field_api_name =>
    if links = [] then click_field_from_table rest field_label field_api_name
    else
      match clickScan field_label links with
      | some l => (some l, extract_field_id_from_url l.url)
      | none => click_field_from_table rest field_label field_api_name

/-- Environment of one `use_fields_page_quick_find` call: whether the
Quick Find box is found, whether each `trigger_search_with_proper_events`
call reports success, and the table results after each search. -/
structure QFEnv where
  box_found : Bool
  search_label_ok : Bool
  results_label : List (List SLink)
  search_api_ok : Bool
  results_api : List (List SLink)

/-- `use_fields_page_quick_find` (main.py 149-196): search by label and
click; if no field id was obtained, search by API name and click again.
Both clicks call `click_field_from_table page field_label field_api_name`,
so both match against the label.  Returns the list of
(search term of the attempt, clicked link) events and the final id. -/
def use_fields_page_quick_find (env : QFEnv) (field_label field_api_name : String) :
    List (String × SLink) × Option (List Char) :=
  if ¬ env.box_found then ([], none)
  else
    let r1 := if env.search_label_ok
      then click_field_from_table env.results_label field_label field_api_name
      else (none, none)
    let ev1 : List (String × SLink) := match r1.1 with
      | some l => [(field_label, l)]
      | none => []
    match r1.2 with
    | some fid => (ev1, some fid)
    | none =>
      let r2 := if env.search_api_ok
        then click_field_from_table env.results_api field_label field_api_name
        else (none, none)
      let ev2 : List (String × SLink) := match r2.1 with
        | some l => [(field_api_name, l)]
        | none => []
      (ev1 ++ ev2, r2.2)

theorem clickScan_matches (field_label : String) (links : List SLink) (l : SLink)
    (h : clickScan field_label links = some l) :
    pyLower (pyStrip l.text) = pyLower field_label := by
  induction links with
  | nil => simp [clickScan] at h
  | cons x rest ih =>
    unfold clickScan at h
    by_cases hx : pyLower (pyStrip x.text) = pyLower field_label
    · rw [if_pos hx] at h
      obtain rfl : x = l := by simpa using h
      exact hx
    · rw [if_neg hx] at h
      exact ih h

theorem click_field_clicked_matches (selRes : List (List SLink))
    (field_label field_api_name : String) (l : SLink)
    (h : (click_field_from_table selRes field_label field_api_name).1 = some l) :
    pyLower (pyStrip l.text) = pyLower field_label := by
  induction selRes with
  | nil => simp [click_field_from_table] at h
  | cons links rest ih =>
    unfold click_field_from_table at h
    by_cases he : links = []
    · rw [if_pos he] at h
      exact ih h
    · rw [if_neg he] at h
      cases hc : clickScan field_label links with
      | some x =>
        rw [hc] at h
        obtain rfl : x = l := by simpa using h
        exact clickScan_matches field_label links _ hc
      | none =>
        rw [hc] at h
        exact ih h

/-- Claim C4 as stated is false: on the retry attempt the search term is
the API name, yet the clicked link's text equals the field label — here
the retry with term `Beta` clicks the link whose text is `Alpha`. -/
theorem C4_counterexample_retry_click_text :
    ((use_fields_page_quick_find ⟨true, true, [], true, [[⟨"Alpha", []⟩]]⟩
        "Alpha" "Beta").1 = [("Beta", ⟨"Alpha", []⟩)])
    ∧ ¬ pyLower (pyStrip (SLink.text ⟨"Alpha", []⟩)) = pyLower "Beta" := by
  constructor
  · decide
  · decide

/-- Claim C4, amended: whenever `use_fields_page_quick_find` clicks a
candidate link — on the first (label-search) attempt or on the retry
(API-name search) attempt — the clicked link's stripped visible text
equals the field LABEL under case-insensitive comparison; the retry
changes only the search term typed into the box, never the matching
criterion of the click. -/
theorem C4_click_matches_label (env : QFEnv) (field_label field_api_name : String) :
    ∀ p ∈ (use_fields_page_quick_find env field_label field_api_name).1,
      pyLower (pyStrip p.2.text) = pyLower field_label := by
  intro p hp
  unfold use_fields_page_quick_find at hp
  by_cases hbox : env.box_found
  · simp only [hbox, not_true, if_false] at hp
    by_cases hs1 : env.search_label_ok
    · rw [if_pos hs1] at hp
      cases hc1 : (click_field_from_table env.results_label field_label field_api_name).1 with
      | some l1 =>
        rw [hc1] at hp
        cases hid : (click_field_from_table env.results_label field_label field_api_name).2 with
        | some fid =>
          rw [hid] at hp
          simp only [List.mem_singleton] at hp
          subst hp
          exact click_field_clicked_matches _ _ _ _ hc1
        | none =>
          rw [hid] at hp
          by_cases hs2 : env.search_api_ok
          · rw [if_pos hs2] at hp
            cases hc2 : (click_field_from_table env.results_api field_label field_api_name).1 with
            | some l2 =>
              rw [hc2] at hp
              simp only [List.mem_append, List.mem_singleton] at hp
              rcases hp with rfl | rfl
              · exact click_field_clicked_matches _ _ _ _ hc1
              · exact click_field_clicked_matches _ _ _ _ hc2
            | none =>
              rw [hc2] at hp
              simp only [List.append_nil, List.mem_singleton] at hp
              subst hp
              exact click_field_clicked_matches _ _ _ _ hc1
          · rw [if_neg hs2] at hp
            simp only [List.append_nil, List.mem_singleton] at hp
            subst hp
            exact click_field_clicked_matches _ _ _ _ hc1
      | none =>
        rw [hc1] at hp
        cases hid : (click_field_from_table env.results_label field_label field_api_name).2 with
        | some fid =>
          rw [hid] at hp
          simp at hp
        | none =>
          rw [hid] at hp
          by_cases hs2 : env.search_api_ok
          · rw [if_pos hs2] at hp
            cases hc2 : (click_field_from_table env.results_api field_label field_api_name).1 with
            | some l2 =>
              rw [hc2] at hp
              simp only [List.nil_append, List.mem_singleton] at hp
              subst hp
              exact click_field_clicked_matches _ _ _ _ hc2
            | none =>
              rw [hc2] at hp
              simp at hp
          · rw [if_neg hs2] at hp
            simp at hp
    · rw [if_neg hs1] at hp
      simp only at hp
      by_cases hs2 : env.search_api_ok
      · rw [if_pos hs2] at hp
        cases hc2 : (click_field_from_table env.results_api field_label field_api_name).1 with
        | some l2 =>
          rw [hc2] at hp
          simp only [List.nil_append, List.mem_singleton] at hp
          subst hp
          exact click_field_clicked_matches _ _ _ _ hc2
        | none =>
          rw [hc2] at hp
          simp at hp
      · rw [if_neg hs2] at hp
        simp at hp
  · simp [hbox] at hp

/-- Witness for the amended C4 at the counterexample's environment. -/
theorem C4_click_matches_label_witness :
    pyLower (pyStrip (SLink.text ⟨"Alpha", []⟩)) = pyLower "Alpha" :=
  C4_click_matches_label ⟨true, true, [], true, [[⟨"Alpha", []⟩]]⟩ "Alpha" "Beta"
    ("Beta", ⟨"Alpha", []⟩) (by decide)

/-- Witness for C2 at the spec's scenario-A input. -/
theorem C2_filter_dedup_functional_witness :
    (("Flow", "Flow X", "url2") : Ref) ∈ filter_dedup
        [("Layout", "Page Layout 1", ""), ("Flow", "Flow X", "url1"),
         ("Flow", "Flow X", "url2")]
    ∧ ¬ (("Flow", "Flow X", "url2") : Ref).1 = "ReportType" :=
  ⟨by decide,
    (C2_filter_dedup_functional
        [("Layout", "Page Layout 1", ""), ("Flow", "Flow X", "url1"),
         ("Flow", "Flow X", "url2")]).2.2.2.2.2
      ("Flow", "Flow X", "url2") (by decide)⟩
